import Mathlib

/-!
# nova-agent-watcher: unit classification, placement, activation and synthesis

A shallow embedding of `system/systemd.go` (the vendored coreos-cloudinit unit
engine) and of `main.go` (the path-change dispatcher and the network synthesis
handler), followed by theorems about them.

Conventions of the embedding:

* A Go `string` is a Lean `String`.  Every scan in the embedded code looks for
  ASCII characters only (`.`, `/`, `e`, `t`, `h`, the digits), and an ASCII byte
  never occurs inside a multi-byte UTF-8 sequence, so scanning characters
  agrees with scanning bytes on UTF-8 text.
* A Go `error` result is an `Option ε` (`none` is `nil`); a `(value, error)`
  pair whose value is meaningless on failure is an `Except ε _`.
* The outside world (service manager, file system, external commands) is a
  record of response functions.  A response may depend on the history of the
  calls made so far, and every embedded function returns the calls it made,
  in order, next to its Go result.
-/

set_option autoImplicit false

namespace NovaAgentWatcher

/-! ## Library functions used by the sources (Go `path`, `path/filepath`, `strings`) -/

/-- Backward scan of `filepath.Ext`: the first argument is the part of the path
not yet visited, last character first; the second is the suffix already
visited.  The scan stops with the empty extension at a path separator and
returns the suffix starting at the first dot it meets. -/
def Ext.scan : List Char → List Char → List Char
  | [], _ => []
  | c :: rest, acc =>
    if c = '/' then []
    else if c = '.' then '.' :: acc
    else Ext.scan rest (c :: acc)

/-- Go `filepath.Ext`: the suffix beginning at the final dot in the final
slash-separated element of the path; empty if that element has no dot. -/
def Ext (path : String) : String := ⟨Ext.scan path.data.reverse []⟩

/-- Go `strings.TrimLeft`: drop every leading character contained in the cutset. -/
def TrimLeft (s cutset : String) : String :=
  ⟨s.data.dropWhile (fun c => cutset.data.contains c)⟩

/-- The slash-separated elements of a path (`a//b` has the elements `a`, the
empty element and `b`; the empty path has one empty element). -/
def splitSlash : List Char → List (List Char)
  | [] => [[]]
  | c :: cs =>
    if c = '/' then [] :: splitSlash cs
    else
      match splitSlash cs with
      | [] => [[c]]
      | w :: ws => (c :: w) :: ws

/-- Elements joined again with single slashes. -/
def joinSlash : List (List Char) → List Char
  | [] => []
  | [w] => w
  | w :: ws => w ++ '/' :: joinSlash ws

/-- One step of `path.Clean` on the output built so far (kept last element
first): empty and `.` elements are dropped, `..` removes the preceding real
element when there is one, is kept at the start of a relative path and is
dropped at the start of a rooted one; any other element is appended. -/
def Clean.step (rooted : Bool) (out : List (List Char)) (elem : List Char) : List (List Char) :=
  if elem = [] ∨ elem = ['.'] then out
  else if elem = ['.', '.'] then
    match out with
    | [] => if rooted then [] else [elem]
    | top :: below => if top = ['.', '.'] then elem :: top :: below else below
  else elem :: out

/-- The elements of the cleaned path, in order. -/
def Clean.elems (rooted : Bool) (path : List Char) : List (List Char) :=
  ((splitSlash path).foldl (Clean.step rooted) []).reverse

/-- Go `path.Clean` on characters. -/
def Clean.chars (path : List Char) : List Char :=
  let rooted : Bool := path.head? = some '/'
  let body := joinSlash (Clean.elems rooted path)
  if rooted then '/' :: body
  else if body = [] then ['.'] else body

/-- Go `path.Clean`: the shortest path equivalent to the argument by purely
lexical processing. -/
def Clean (path : String) : String := ⟨Clean.chars path.data⟩

/-- Go `path.Join` (and `filepath.Join` on Unix): leading empty elements are
ignored, the rest is joined with slashes and cleaned; all-empty input gives
the empty string. -/
def Join (elem : List String) : String :=
  match elem.dropWhile (fun e => e = "") with
  | [] => ""
  | rest => Clean ⟨joinSlash (rest.map String.data)⟩

/-- Go `filepath.Base`: the last element of the path, trailing slashes removed. -/
def Base (path : String) : String :=
  if path = "" then "."
  else
    let stripped := path.data.reverse.dropWhile (fun c => c = '/')
    let last := (stripped.takeWhile (fun c => c ≠ '/')).reverse
    if last = [] then "/" else ⟨last⟩

/-! ## `system/systemd.go` -/

/-- The Go struct `Unit`. -/
structure Unit where
  Name : String
  Runtime : Bool
  Content : String
deriving DecidableEq, Repr

/-- The method `(u *Unit) Type()`. -/
def Unit.Type (u : Unit) : String :=
  let ext := Ext u.Name
  TrimLeft ext "."

/-- The method `(u *Unit) Group()`. -/
def Unit.Group (u : Unit) : String :=
  let t := u.Type
  if t = "network" ∨ t = "netdev" ∨ t = "link" then "network" else "system"

/-- The struct `File` handed to `WriteFile` (the fields `PlaceUnit` sets). -/
structure File where
  Path : String
  Content : String
  RawFilePermissions : String
deriving DecidableEq, Repr

/-- A file-system call made by `PlaceUnit`. -/
inductive FsCall where
  | stat (path : String)
  | mkdirAll (path : String) (perm : Nat)
  | writeFile (file : File)
deriving DecidableEq, Repr

/-- Responses of the file system to `PlaceUnit`.  `WriteFile` is the
package's file-write helper, whose source is not part of the repository
sources at hand; it is taken as a parameter. -/
structure FileSystem (ε : Type) where
  statIsNotExist : List FsCall → String → Bool
  MkdirAll : List FsCall → String → Nat → Option ε
  WriteFile : List FsCall → File → Option ε

/-- The destination `PlaceUnit` computes: `dst` after line 56. -/
def PlaceUnit.dst (u : Unit) (root : String) : String :=
  let dir := if u.Runtime then "run" else "etc"
  let dst := Join [root, dir, "systemd", u.Group]
  Join [dst, u.Name]

/-- The function `PlaceUnit`, after the history `hist` of earlier file-system
calls: the calls it makes, in order, and the returned `(string, error)` pair. -/
def PlaceUnit {ε : Type} (fs : FileSystem ε) (hist : List FsCall) (u : Unit) (root : String) :
    List FsCall × String × Option ε :=
  let dir := if u.Runtime then "run" else "etc"
  let dst := Join [root, dir, "systemd", u.Group]
  let stat := [FsCall.stat dst]
  let write (calls : List FsCall) : List FsCall × String × Option ε :=
    let dst := Join [dst, u.Name]
    let file : File := { Path := dst, Content := u.Content, RawFilePermissions := "0644" }
    match fs.WriteFile (hist ++ calls) file with
    | some err => (calls ++ [FsCall.writeFile file], "", some err)
    | none => (calls ++ [FsCall.writeFile file], dst, none)
  if fs.statIsNotExist hist dst then
    match fs.MkdirAll (hist ++ stat) dst 0o755 with
    | some err => (stat ++ [FsCall.mkdirAll dst 0o755], "", some err)
    | none => write (stat ++ [FsCall.mkdirAll dst 0o755])
  else write stat

/-- One call of `RestartUnitByName`, with the error it returned. -/
structure Restart (ε : Type) where
  name : String
  err : Option ε

/-- Responses of the service manager: opening the control connection
(`dbus.New`) and the restart job itself (`conn.RestartUnit`). -/
structure Manager (ε : Type) where
  New : List (Restart ε) → Option ε
  RestartUnit : List (Restart ε) → String → String → Option ε

/-- The function `RestartUnitByName`, after the history `hist` of earlier
restart requests. -/
def RestartUnitByName {ε : Type} (m : Manager ε) (hist : List (Restart ε)) (name : String) :
    Option ε :=
  match m.New hist with
  | some err => some err
  | none => m.RestartUnit hist name "replace"

/-- The loop of `separateNetworkUnits`, on the two slices built so far. -/
def separateNetworkUnits.loop : List Unit → List Unit → List Unit → List Unit × List Unit
  | [], networkUnits, nonNetworkUnits => (networkUnits, nonNetworkUnits)
  | unit :: units, networkUnits, nonNetworkUnits =>
    if unit.Group = "network" then
      separateNetworkUnits.loop units (networkUnits ++ [unit]) nonNetworkUnits
    else
      separateNetworkUnits.loop units networkUnits (nonNetworkUnits ++ [unit])

/-- The function `separateNetworkUnits`. -/
def separateNetworkUnits (units : List Unit) : List Unit × List Unit :=
  separateNetworkUnits.loop units [] []

/-- The second loop of `StartUnits`: restart each unit by name, stopping at
the first error.  Returns the requests issued and the error returned. -/
def StartUnits.loop {ε : Type} (m : Manager ε) :
    List (Restart ε) → List Unit → List (Restart ε) × Option ε
  | _, [] => ([], none)
  | hist, unit :: units =>
    match RestartUnitByName m hist unit.Name with
    | some err => ([⟨unit.Name, some err⟩], some err)
    | none =>
      let rest := StartUnits.loop m (hist ++ [⟨unit.Name, none⟩]) units
      (⟨unit.Name, none⟩ :: rest.1, rest.2)

/-- The function `StartUnits`, after the history `hist` of earlier restart
requests: the requests it issues, in order, and the error it returns. -/
def StartUnits {ε : Type} (m : Manager ε) (hist : List (Restart ε)) (units : List Unit) :
    List (Restart ε) × Option ε :=
  let (networkUnits, nonNetworkUnits) := separateNetworkUnits units
  if networkUnits.length > 0 then
    match RestartUnitByName m hist "systemd-networkd.service" with
    | some err => ([⟨"systemd-networkd.service", some err⟩], some err)
    | none =>
      let rest := StartUnits.loop m (hist ++ [⟨"systemd-networkd.service", none⟩]) nonNetworkUnits
      (⟨"systemd-networkd.service", none⟩ :: rest.1, rest.2)
  else StartUnits.loop m hist nonNetworkUnits

/-! ## `main.go` -/

/-- Modelled from the spec: the type `cloudinit.CloudConfig` is declared outside
the sources at hand; the spec describes the document as an ordered collection
of unit descriptors, which is the only part `handleNet` touches
(`config.Coreos.Units`). -/
structure CloudConfig where
  Units : List Unit
deriving DecidableEq, Repr

/-- The regular expression `eth[\d]+` tried at the start of a text: the match
is `eth` followed by the longest non-empty run of ASCII digits. -/
def re.matchAt : List Char → Option (List Char)
  | c1 :: c2 :: c3 :: rest =>
    if c1 = 'e' ∧ c2 = 't' ∧ c3 = 'h' then
      match rest.takeWhile Char.isDigit with
      | [] => none
      | d :: ds => some (c1 :: c2 :: c3 :: d :: ds)
    else none
  | _ => none

/-- Left-to-right search of `FindAllString`: `skip` counts the characters of
the previous match still to be passed over (matches do not overlap); at any
other position the leftmost match is taken if there is one. -/
def re.scan : Nat → List Char → List (List Char)
  | _, [] => []
  | skip + 1, _ :: cs => re.scan skip cs
  | 0, c :: cs =>
    match re.matchAt (c :: cs) with
    | some m => m :: re.scan (m.length - 1) cs
    | none => re.scan 0 cs

/-- The call `re.FindAllString(s, -1)` for `re = regexp.MustCompile("eth[\\d]+")`:
all successive non-overlapping matches, in text order. -/
def re.FindAllString (s : String) : List String :=
  (re.scan 0 s.data).map String.mk

/-- One run of the external translator: the command, its arguments, the
combined output captured and the error returned by `cmd.CombinedOutput()`. -/
structure Command (ε : Type) where
  name : String
  arg : List String
  out : String
  err : Option ε

/-- What `handleNet` needs from the host: reading a file and running a
command (`ioutil.ReadFile`, `exec.Command(...).CombinedOutput()`). -/
structure Host (ε : Type) where
  ReadFile : String → Except ε String
  CombinedOutput : List (Command ε) → String → List String → String × Option ε

/-- The loop of `handleNet` over `eths`, with the keys of `configured_eths`
set so far and the units appended so far.  Returns the commands run and the
function result. -/
def handleNet.loop {ε : Type} (host : Host ε) (file_name : String) :
    List (Command ε) → List String → List String → List Unit →
      List (Command ε) × Except ε CloudConfig
  | _, [], _, units => ([], Except.ok ⟨units⟩)
  | hist, eth :: eths, configured_eths, units =>
    if eth ∈ configured_eths then
      handleNet.loop host file_name hist eths configured_eths units
    else
      let res := host.CombinedOutput hist "./scripts/gentoo-to-networkd" [eth, file_name]
      let cmd : Command ε :=
        { name := "./scripts/gentoo-to-networkd", arg := [eth, file_name],
          out := res.1, err := res.2 }
      match res.2 with
      | some err => ([cmd], Except.error err)
      | none =>
        let unit := "50-" ++ eth ++ ".network"
        let u : Unit := { Name := unit, Runtime := false, Content := res.1 }
        let rest := handleNet.loop host file_name (hist ++ [cmd]) eths
          (eth :: configured_eths) (units ++ [u])
        (cmd :: rest.1, rest.2)

/-- The function `handleNet`, after the history `hist` of earlier commands:
the commands it runs, in order, and its result (`Except.error` is the
`nil, err` return). -/
def handleNet {ε : Type} (host : Host ε) (hist : List (Command ε)) (file_name : String) :
    List (Command ε) × Except ε CloudConfig :=
  match host.ReadFile file_name with
  | Except.error err => ([], Except.error err)
  | Except.ok contents =>
    let network_str := contents
    let eths := re.FindAllString network_str
    handleNet.loop host file_name hist eths [] []

/-- A `dbus.Property` as built by `runConfig`. -/
inductive Property where
  | PropDescription (desc : String)
  | PropExecStart (command : List String) (uncleanIsFailure : Bool)
deriving DecidableEq, Repr

/-- A transient-unit request sent to the service manager. -/
structure Transient where
  name : String
  mode : String
  properties : List Property
deriving DecidableEq, Repr

/-- What `runEvent` and `runConfig` need from the host on top of `Host`.
`Rel` is `filepath.Rel`, `Serialize` is the method `config.String()` of the
document type declared outside the sources at hand. -/
structure RunHost (ε : Type) extends Host ε where
  Stat : String → Option ε
  Rel : String → String → Except ε String
  Serialize : CloudConfig → String
  TempFile : String → String → Except ε String
  WriteString : String → String → Option ε
  New : Option ε
  StartTransientUnit : Transient → Option ε

/-- What a run of `runEvent` did and how it ended. -/
structure RunTrace (ε : Type) where
  commands : List (Command ε)
  configs : List CloudConfig
  transients : List Transient
  ret : Option (Option ε)

/-- The function `runConfig`: the transient units requested and the error
returned. -/
def runConfig {ε : Type} (host : RunHost ε) (config : CloudConfig) :
    List Transient × Option ε :=
  match host.TempFile "" "rackspace-cloudinit-" with
  | Except.error err => ([], some err)
  | Except.ok f =>
    match host.WriteString f (host.Serialize config) with
    | some err => ([], some err)
    | none =>
      let props := [Property.PropDescription
          "Unit generated and executed by coreos-cloudinit on behalf of user",
        Property.PropExecStart ["/usr/bin/coreos-cloudinit", "--from-file", f] false]
      let tmp_file := Base f
      let name := tmp_file ++ ".service"
      match host.New with
      | some err => ([], some err)
      | none => ([⟨name, "replace", props⟩], host.StartTransientUnit ⟨name, "replace", props⟩)

/-- The type of the values of the map `fileHandlers`. -/
abbrev Handler (ε : Type) : Type :=
  Host ε → List (Command ε) → String → List (Command ε) × Except ε CloudConfig

/-- The map `fileHandlers`, as its lookup: `none` is the `nil` function value
that indexing a Go map yields for a key it does not hold. -/
def fileHandlers {ε : Type} (key : String) : Option (Handler ε) :=
  if key = "/etc/conf.d/net" then some handleNet else none

/-- The function `runEvent`.  In the trace, `ret = some err` is a normal return
of `err`; `ret = none` is the run-time panic raised by calling the `nil`
function value that `fileHandlers[func_key]` yields for an absent key
(nothing in the program recovers from it). -/
def runEvent {ε : Type} (host : RunHost ε) (full_path : String) (watch_dir : String) :
    RunTrace ε :=
  match host.Stat full_path with
  | some err => ⟨[], [], [], some (some err)⟩
  | none =>
    match host.Rel watch_dir full_path with
    | Except.error err => ⟨[], [], [], some (some err)⟩
    | Except.ok file_name =>
      let func_key := Join ["/", file_name]
      match fileHandlers func_key with
      | none => ⟨[], [], [], none⟩
      | some handler =>
        match handler host.toHost [] full_path with
        | (commands, Except.error err) => ⟨commands, [], [], some (some err)⟩
        | (commands, Except.ok config) =>
          let res := runConfig host config
          ⟨commands, [config], res.1, some res.2⟩

/-! ## Notions used in the statements and proofs -/

/-- A path element that `path.Clean` keeps as it is: not empty, not `.`, not
`..`, and without a slash. -/
def SimpleElem (e : List Char) : Prop :=
  e ≠ [] ∧ e ≠ ['.'] ∧ e ≠ ['.', '.'] ∧ ¬ '/' ∈ e

/-- The shape of the output `path.Clean` builds (last element first): kept
elements on top of a block of `..` elements, which is empty for a rooted path. -/
def Clean.Stack (rooted : Bool) (out : List (List Char)) : Prop :=
  ∃ reals n, out = reals ++ List.replicate n ['.', '.'] ∧ (∀ e ∈ reals, SimpleElem e) ∧
    (rooted = true → n = 0)

/-- What `path.Clean` makes of a path `p` that is continued by further
elements: the cleaned `p` with its separating slash, or nothing but the root
slash when no element of `p` survives. -/
def Clean.base (p : List Char) : List Char :=
  let rooted : Bool := p.head? = some '/'
  let kept := Clean.elems rooted p
  (if rooted then ['/'] else []) ++ (if kept = [] then [] else joinSlash kept ++ ['/'])

/-- Whether a path starts at the root. -/
def isRooted (p : List Char) : Bool := p.head? = some '/'

/-- The prefix contributed by the kept elements of a path to a longer path. -/
def Clean.lead (rooted : Bool) (kept : List (List Char)) : List Char :=
  (if rooted then ['/'] else []) ++ (if kept = [] then [] else joinSlash kept ++ ['/'])

/-- Whether `path.Clean` keeps an element that is not `..`: it drops the
empty element and the `.` element. -/
def Clean.isKept (e : List Char) : Bool := decide (¬ (e = [] ∨ e = ['.']))

/-- The elements of a path that `path.Clean` keeps when none of them is `..`:
all but the empty elements and the `.` elements. -/
def Clean.kept (q : List Char) : List (List Char) :=
  (splitSlash q).filter Clean.isKept

/-- A path lies under a directory when it continues the directory's path
after a separating slash. -/
def liesUnder (dir path : String) : Prop :=
  (dir.data ++ ['/']) <+: path.data ∧ (dir.data ++ ['/']).length < path.data.length

instance (dir path : String) : Decidable (liesUnder dir path) := by
  unfold liesUnder
  infer_instance

/-- A file system on which every call succeeds and every directory exists. -/
def readyFs : FileSystem String :=
  { statIsNotExist := fun _ _ => false,
    MkdirAll := fun _ _ _ => none,
    WriteFile := fun _ _ => none }

/-- From the spec's words for `Type()`: the substring after the last `.` of the
name (empty when the name has no `.`), in lowercase. -/
def Type.spec (name : String) : String :=
  let l := name.data.reverse
  let after := if '.' ∈ l then (l.takeWhile (fun c => c ≠ '.')).reverse else []
  ⟨after.map Char.toLower⟩

/-- The shape of a run that stops at the first error: either every request
succeeded and all of `names` were requested, or the requests are an initial
part of `names` whose last one failed with the error returned. -/
def StopsAtFirstError {ε : Type} (rs : List (Restart ε)) (e : Option ε) (names : List String) :
    Prop :=
  (rs.map Restart.name = names ∧ (∀ r ∈ rs, r.err = none) ∧ e = none) ∨
  (∃ pre bad x post, rs = pre ++ [⟨bad, some x⟩] ∧ (∀ r ∈ pre, r.err = none) ∧ e = some x ∧
    names = pre.map Restart.name ++ bad :: post)

/-- The sequence of restart requests `StartUnits` is to issue for a batch. -/
def StartUnits.plan (units : List Unit) : List String :=
  (if ∃ u ∈ units, u.Group = "network" then ["systemd-networkd.service"] else []) ++
    (units.filter (fun u => ¬ u.Group = "network")).map Unit.Name

/-- The distinct members of a list in the order of their first occurrence. -/
def firstSeen {α : Type} [DecidableEq α] : List α → List α
  | [] => []
  | x :: xs => x :: (firstSeen xs).filter (fun y => ¬ y = x)

/-- The tokens the loop of `handleNet` still has to translate: the distinct
members of `eths` that are not yet keys of `configured_eths`, in the order of
their first occurrence. -/
def handleNet.pending (eths configured_eths : List String) : List String :=
  firstSeen (eths.filter (fun e => ¬ e ∈ configured_eths))

/-- A host whose source file mentions `eth0` three times and `eth1` once and
whose translator always succeeds, echoing its arguments. -/
def echoHost : Host String :=
  { ReadFile := fun _ => Except.ok "iface eth0 eth0 up; eth1 down; eth0",
    CombinedOutput := fun _ _ arg => (String.intercalate " " arg, none) }

/-- A host whose translator fails for `eth1`, the second of three tokens. -/
def failingHost : Host String :=
  { ReadFile := fun _ => Except.ok "eth0 eth1 eth0 eth2",
    CombinedOutput := fun _ _ arg =>
      if arg.head? = some "eth1" then ("no such device", some "exit status 1")
      else (String.intercalate " " arg, none) }

/-- A host whose source file has the single token `eth3`. -/
def staticHost : Host String :=
  { ReadFile := fun _ => Except.ok "iface eth3 inet static ...",
    CombinedOutput := fun _ _ arg => (String.intercalate " " arg, none) }

/-- A service manager on which every restart request succeeds. -/
def calmManager : Manager String :=
  { New := fun _ => none,
    RestartUnit := fun _ _ _ => none }

/-- A service manager that refuses to restart `b.service`. -/
def brokenManager : Manager String :=
  { New := fun _ => none,
    RestartUnit := fun _ name _ => if name = "b.service" then some "job failed" else none }

/-- A batch with two network units among three services. -/
def mixedBatch : List Unit :=
  [⟨"a.service", false, ""⟩, ⟨"50-eth0.network", false, ""⟩, ⟨"b.service", false, ""⟩,
   ⟨"uplink.link", true, ""⟩, ⟨"c.service", false, ""⟩]

/-- A host on which every path exists and the watch directory is `/`, where
`filepath.Rel("/", "/etc/conf.d/hostname")` is `etc/conf.d/hostname`; no
other call is answered with success. -/
def siblingHost : RunHost String :=
  { ReadFile := fun _ => Except.error "unused",
    CombinedOutput := fun _ _ _ => ("", some "unused"),
    Stat := fun _ => none,
    Rel := fun basepath targpath =>
      if basepath = "/" ∧ targpath = "/etc/conf.d/hostname" then Except.ok "etc/conf.d/hostname"
      else Except.error "unused",
    Serialize := fun _ => "",
    TempFile := fun _ _ => Except.error "unused",
    WriteString := fun _ _ => some "unused",
    New := some "unused",
    StartTransientUnit := fun _ => some "unused" }

/-! ## Lemmas -/

theorem splitSlash_ne_nil (p : List Char) : splitSlash p ≠ [] := by
  cases p with
  | nil => simp [splitSlash]
  | cons c p =>
    simp only [splitSlash]
    split
    · simp
    · split <;> simp

theorem splitSlash_of_not_mem (w : List Char) (h : ¬ '/' ∈ w) : splitSlash w = [w] := by
  induction w with
  | nil => rfl
  | cons c w ih =>
    have hc : c ≠ '/' := fun hc => h (by simp [hc])
    have hw : ¬ '/' ∈ w := fun hw => h (List.mem_cons_of_mem _ hw)
    simp [splitSlash, hc, ih hw]

theorem splitSlash_append (p q : List Char) :
    splitSlash (p ++ '/' :: q) = splitSlash p ++ splitSlash q := by
  induction p with
  | nil => simp [splitSlash]
  | cons c p ih =>
    by_cases hc : c = '/'
    · simp [splitSlash, hc, ih]
    · cases hp : splitSlash p with
      | nil => exact absurd hp (splitSlash_ne_nil p)
      | cons w ws =>
        rw [hp] at ih
        simp [splitSlash, hc, ih, hp]

theorem not_mem_of_mem_splitSlash (p w : List Char) (h : w ∈ splitSlash p) : ¬ '/' ∈ w := by
  induction p generalizing w with
  | nil =>
    simp [splitSlash] at h
    simp [h]
  | cons c p ih =>
    by_cases hc : c = '/'
    · simp only [splitSlash, hc, ↓reduceIte, List.mem_cons] at h
      rcases h with rfl | h
      · simp
      · exact ih w h
    · simp only [splitSlash, hc, ↓reduceIte] at h
      cases hp : splitSlash p with
      | nil => exact absurd hp (splitSlash_ne_nil p)
      | cons v vs =>
        simp only [hp, List.mem_cons] at h
        rcases h with rfl | h
        · intro hm
          rcases List.mem_cons.1 hm with h1 | h1
          · exact hc h1.symm
          · exact ih v (by simp [hp]) h1
        · exact ih w (by simp [hp, h])

theorem joinSlash_cons (w : List Char) (ws : List (List Char)) (h : ws ≠ []) :
    joinSlash (w :: ws) = w ++ '/' :: joinSlash ws := by
  cases ws with
  | nil => exact absurd rfl h
  | cons v vs => rfl

theorem joinSlash_append (a b : List (List Char)) (ha : a ≠ []) (hb : b ≠ []) :
    joinSlash (a ++ b) = joinSlash a ++ '/' :: joinSlash b := by
  induction a with
  | nil => exact absurd rfl ha
  | cons w ws ih =>
    cases ws with
    | nil => simp [joinSlash_cons _ _ hb, joinSlash]
    | cons v vs =>
      have := ih (by simp)
      rw [List.cons_append, joinSlash_cons w _ (by simp), this,
        joinSlash_cons w (v :: vs) (by simp)]
      simp

theorem splitSlash_joinSlash (l : List (List Char)) (hne : l ≠ [])
    (h : ∀ w ∈ l, ¬ '/' ∈ w) : splitSlash (joinSlash l) = l := by
  induction l with
  | nil => exact absurd rfl hne
  | cons w ws ih =>
    cases ws with
    | nil => simpa [joinSlash] using splitSlash_of_not_mem w (h w (by simp))
    | cons v vs =>
      rw [joinSlash_cons _ _ (by simp), splitSlash_append,
        splitSlash_of_not_mem w (h w (by simp)),
        ih (by simp) (fun x hx => h x (List.mem_cons_of_mem _ hx))]
      simp

theorem Clean.step_simple (rooted : Bool) (out : List (List Char)) (e : List Char)
    (h : SimpleElem e) : Clean.step rooted out e = e :: out := by
  obtain ⟨h1, h2, h3, _⟩ := h
  simp [Clean.step, h1, h2, h3]

theorem Clean.foldl_simple (rooted : Bool) (out s : List (List Char))
    (h : ∀ e ∈ s, SimpleElem e) : s.foldl (Clean.step rooted) out = s.reverse ++ out := by
  induction s generalizing out with
  | nil => simp
  | cons e s ih =>
    rw [List.foldl_cons, Clean.step_simple rooted out e (h e (by simp)),
      ih _ (fun x hx => h x (List.mem_cons_of_mem _ hx))]
    simp

theorem Clean.step_stack (rooted : Bool) (out : List (List Char)) (e : List Char)
    (hs : Clean.Stack rooted out) (he : ¬ '/' ∈ e) : Clean.Stack rooted (Clean.step rooted out e) := by
  obtain ⟨reals, n, hout, hre, hn⟩ := hs
  by_cases h1 : e = [] ∨ e = ['.']
  · simp only [Clean.step, h1, ↓reduceIte]
    exact ⟨reals, n, hout, hre, hn⟩
  · by_cases h2 : e = ['.', '.']
    · subst h2
      simp only [Clean.step, h1, ↓reduceIte]
      cases reals with
      | nil =>
        cases n with
        | zero =>
          simp only [List.replicate, List.append_nil] at hout
          subst hout
          cases rooted with
          | true => exact ⟨[], 0, by simp, by simp, fun _ => rfl⟩
          | false => exact ⟨[], 1, by simp [List.replicate], by simp, by simp⟩
        | succ k =>
          have hr : rooted = false := by
            cases rooted with
            | true => exact absurd (hn rfl) (by simp)
            | false => rfl
          subst hout
          simp only [List.nil_append, List.replicate_succ, ↓reduceIte]
          exact ⟨[], k + 2, by simp [List.replicate_succ], by simp, by simp [hr]⟩
      | cons top reals =>
        subst hout
        have htop := hre top (by simp)
        simp only [List.cons_append, htop.2.2.1, ↓reduceIte]
        exact ⟨reals, n, rfl, fun x hx => hre x (List.mem_cons_of_mem _ hx), hn⟩
    · have hsimple : SimpleElem e := by
        refine ⟨fun h => h1 (Or.inl h), fun h => h1 (Or.inr h), h2, he⟩
      rw [Clean.step_simple rooted out e hsimple, hout]
      refine ⟨e :: reals, n, by simp, ?_, hn⟩
      intro x hx
      rcases List.mem_cons.1 hx with rfl | hx
      · exact hsimple
      · exact hre x hx

theorem Clean.foldl_stack (rooted : Bool) (out l : List (List Char))
    (hs : Clean.Stack rooted out) (hl : ∀ e ∈ l, ¬ '/' ∈ e) :
    Clean.Stack rooted (l.foldl (Clean.step rooted) out) := by
  induction l generalizing out with
  | nil => exact hs
  | cons e l ih =>
    rw [List.foldl_cons]
    exact ih _ (Clean.step_stack rooted out e hs (hl e (by simp)))
      (fun x hx => hl x (List.mem_cons_of_mem _ hx))

theorem Clean.foldl_dotdot (n : Nat) :
    (List.replicate n ['.', '.']).foldl (Clean.step false) [] = List.replicate n ['.', '.'] := by
  induction n with
  | zero => rfl
  | succ k ih =>
    rw [List.replicate_succ', List.foldl_append, ih, ← List.replicate_succ']
    cases k with
    | zero => simp [Clean.step]
    | succ j => simp [Clean.step, List.replicate_succ]

theorem Clean.reprocess (rooted : Bool) (out : List (List Char)) (hs : Clean.Stack rooted out) :
    out.reverse.foldl (Clean.step rooted) [] = out := by
  obtain ⟨reals, n, hout, hre, hn⟩ := hs
  subst hout
  rw [List.reverse_append, List.reverse_replicate, List.foldl_append]
  have h1 : (List.replicate n ['.', '.']).foldl (Clean.step rooted) [] =
      List.replicate n ['.', '.'] := by
    cases rooted with
    | true => rw [hn rfl]; rfl
    | false => exact Clean.foldl_dotdot n
  rw [h1, Clean.foldl_simple rooted _ _ (fun e he => hre e (List.mem_reverse.1 he))]
  simp

theorem Clean.stack_mem (rooted : Bool) (out : List (List Char)) (hs : Clean.Stack rooted out)
    (e : List Char) (he : e ∈ out) : e ≠ [] ∧ ¬ '/' ∈ e := by
  obtain ⟨reals, n, hout, hre, _⟩ := hs
  subst hout
  rcases List.mem_append.1 he with h | h
  · exact ⟨(hre e h).1, (hre e h).2.2.2⟩
  · rw [List.eq_of_mem_replicate h]
    exact ⟨by simp, by decide⟩

theorem Clean.stack_nil (rooted : Bool) : Clean.Stack rooted [] :=
  ⟨[], 0, rfl, by simp, fun _ => rfl⟩

theorem Clean.stack_elems (rooted : Bool) (p : List Char) :
    Clean.Stack rooted (Clean.elems rooted p).reverse := by
  unfold Clean.elems
  rw [List.reverse_reverse]
  exact Clean.foldl_stack rooted [] _ (Clean.stack_nil rooted)
    (fun e he => not_mem_of_mem_splitSlash p e he)

theorem Clean.elems_append (rooted : Bool) (p : List Char) (s : List (List Char))
    (hs : s ≠ []) (hsimple : ∀ e ∈ s, SimpleElem e) :
    Clean.elems rooted (p ++ '/' :: joinSlash s) = Clean.elems rooted p ++ s := by
  unfold Clean.elems
  rw [splitSlash_append, splitSlash_joinSlash s hs (fun w hw => (hsimple w hw).2.2.2),
    List.foldl_append, Clean.foldl_simple rooted _ s hsimple]
  simp

theorem joinSlash_ne_nil (l : List (List Char)) (hne : l ≠ []) (h : ∀ e ∈ l, e ≠ []) :
    joinSlash l ≠ [] := by
  cases l with
  | nil => exact absurd rfl hne
  | cons w ws =>
    have hw := h w (by simp)
    cases ws with
    | nil => simpa [joinSlash] using hw
    | cons v vs =>
      rw [joinSlash_cons _ _ (by simp)]
      simp [hw]

theorem joinSlash_head (l : List (List Char)) (hne : l ≠ [])
    (h : ∀ e ∈ l, e ≠ [] ∧ ¬ '/' ∈ e) : (joinSlash l).head? ≠ some '/' := by
  cases l with
  | nil => exact absurd rfl hne
  | cons w ws =>
    obtain ⟨hw1, hw2⟩ := h w (by simp)
    cases w with
    | nil => exact absurd rfl hw1
    | cons c w =>
      have hc : c ≠ '/' := fun hc => hw2 (by simp [hc])
      cases ws with
      | nil => simpa [joinSlash] using hc
      | cons v vs =>
        rw [joinSlash_cons _ _ (by simp)]
        simpa using hc

theorem Clean.chars_eq (p : List Char) :
    Clean.chars p =
      if isRooted p then '/' :: joinSlash (Clean.elems (isRooted p) p)
      else if joinSlash (Clean.elems (isRooted p) p) = [] then ['.']
      else joinSlash (Clean.elems (isRooted p) p) := by
  unfold Clean.chars isRooted
  by_cases h : p.head? = some '/' <;> simp [h]

theorem Clean.base_eq (p : List Char) :
    Clean.base p = Clean.lead (isRooted p) (Clean.elems (isRooted p) p) := rfl

theorem Clean.lead_append (rooted : Bool) (kept s : List (List Char)) (hs : s ≠ []) :
    Clean.lead rooted kept ++ joinSlash s =
      (if rooted then ['/'] else []) ++ joinSlash (kept ++ s) := by
  unfold Clean.lead
  by_cases hk : kept = []
  · simp [hk]
  · rw [joinSlash_append _ _ hk hs]
    simp [hk]

theorem Clean.lead_snoc (rooted : Bool) (kept s : List (List Char)) (hs : s ≠ []) :
    Clean.lead rooted (kept ++ s) = Clean.lead rooted kept ++ joinSlash s ++ ['/'] := by
  rw [Clean.lead_append rooted kept s hs]
  unfold Clean.lead
  simp [hs]

theorem isRooted_append (p q : List Char) (hp : p ≠ []) : isRooted (p ++ q) = isRooted p := by
  cases p with
  | nil => exact absurd rfl hp
  | cons c p => rfl

theorem Clean.chars_append (p : List Char) (hp : p ≠ []) (s : List (List Char))
    (hs : s ≠ []) (hsimple : ∀ e ∈ s, SimpleElem e) :
    Clean.chars (p ++ '/' :: joinSlash s) = Clean.base p ++ joinSlash s := by
  have hall : ∀ e ∈ Clean.elems (isRooted p) p ++ s, e ≠ [] := by
    intro e he
    rcases List.mem_append.1 he with h | h
    · exact (Clean.stack_mem _ _ (Clean.stack_elems _ p) e (List.mem_reverse.2 h)).1
    · exact (hsimple e h).1
  have hjs := joinSlash_ne_nil _ (by simp [hs]) hall
  rw [Clean.chars_eq, isRooted_append p _ hp, Clean.elems_append _ p s hs hsimple,
    Clean.base_eq, Clean.lead_append _ _ s hs]
  revert hjs
  cases isRooted p <;> intro hjs <;> simp [hjs]

theorem Clean.chars_simple (s : List (List Char)) (hs : s ≠ [])
    (hsimple : ∀ e ∈ s, SimpleElem e) : Clean.chars (joinSlash s) = joinSlash s := by
  have hhead := joinSlash_head s hs (fun e he => ⟨(hsimple e he).1, (hsimple e he).2.2.2⟩)
  have hjs : joinSlash s ≠ [] := joinSlash_ne_nil s hs (fun e he => (hsimple e he).1)
  have hr : isRooted (joinSlash s) = false := by
    unfold isRooted
    simpa using hhead
  have helems : Clean.elems false (joinSlash s) = s := by
    unfold Clean.elems
    rw [splitSlash_joinSlash s hs (fun w hw => (hsimple w hw).2.2.2),
      Clean.foldl_simple false _ s hsimple]
    simp
  rw [Clean.chars_eq, hr, helems]
  simp [hjs]

theorem Clean.base_nil : Clean.base [] = [] := by decide

theorem Clean.rerun (rooted : Bool) (kept s : List (List Char))
    (hstack : Clean.Stack rooted kept.reverse) (hs : s ≠ [])
    (hsimple : ∀ e ∈ s, SimpleElem e) :
    isRooted (Clean.lead rooted kept ++ joinSlash s) = rooted ∧
      Clean.elems rooted (Clean.lead rooted kept ++ joinSlash s) = kept ++ s := by
  have hall : ∀ e ∈ kept ++ s, e ≠ [] ∧ ¬ '/' ∈ e := by
    intro e he
    rcases List.mem_append.1 he with h | h
    · exact Clean.stack_mem _ _ hstack e (List.mem_reverse.2 h)
    · exact ⟨(hsimple e h).1, (hsimple e h).2.2.2⟩
  have hne : kept ++ s ≠ [] := by simp [hs]
  have hfold : (kept ++ s).foldl (Clean.step rooted) [] = (kept ++ s).reverse := by
    rw [List.foldl_append]
    have := Clean.reprocess _ _ hstack
    rw [List.reverse_reverse] at this
    rw [this, Clean.foldl_simple _ _ s hsimple]
    simp
  rw [Clean.lead_append rooted kept s hs]
  cases rooted with
  | true =>
    constructor
    · rfl
    · unfold Clean.elems
      simp only [↓reduceIte, List.singleton_append]
      rw [show ('/' :: joinSlash (kept ++ s)) = [] ++ '/' :: joinSlash (kept ++ s) from rfl,
        splitSlash_append, splitSlash_joinSlash _ hne (fun w hw => (hall w hw).2),
        show splitSlash [] = [[]] from rfl, List.foldl_append]
      have h0 : List.foldl (Clean.step true) [] [[]] = [] := by simp [Clean.step]
      rw [h0, hfold, List.reverse_reverse]
  | false =>
    constructor
    · unfold isRooted
      simpa using joinSlash_head _ hne hall
    · unfold Clean.elems
      simp only [Bool.false_eq_true, ↓reduceIte, List.nil_append]
      rw [splitSlash_joinSlash _ hne (fun w hw => (hall w hw).2), hfold, List.reverse_reverse]

theorem Clean.base_of_clean (p : List Char) (s : List (List Char)) (hs : s ≠ [])
    (hsimple : ∀ e ∈ s, SimpleElem e) :
    Clean.base (Clean.base p ++ joinSlash s) = Clean.base p ++ joinSlash s ++ ['/'] := by
  have h := Clean.rerun (isRooted p) (Clean.elems (isRooted p) p) s
    (Clean.stack_elems _ p) hs hsimple
  rw [Clean.base_eq p]
  rw [Clean.base_eq, h.1, h.2, Clean.lead_snoc _ _ s hs]

theorem Join_cons (root : String) (s : List String) (hs : s ≠ [])
    (hsimple : ∀ e ∈ s, SimpleElem e.data) :
    (Join (root :: s)).data = Clean.base root.data ++ joinSlash (s.map String.data) := by
  have hs2 : s.map String.data ≠ [] := by simpa using hs
  have hsimple2 : ∀ e ∈ s.map String.data, SimpleElem e := by
    intro e he
    obtain ⟨x, hx, rfl⟩ := List.mem_map.1 he
    exact hsimple x hx
  by_cases hroot : root = ""
  · subst hroot
    cases s with
    | nil => exact absurd rfl hs
    | cons x xs =>
      have hx : x ≠ "" := by
        intro h
        have := (hsimple x (by simp)).1
        rw [h] at this
        exact this rfl
      have hdrop : List.dropWhile (fun e => decide (e = "")) ("" :: x :: xs) = x :: xs := by
        simp [List.dropWhile, hx]
      unfold Join
      rw [hdrop]
      show Clean.chars (joinSlash ((x :: xs).map String.data)) = _
      rw [Clean.chars_simple _ hs2 hsimple2]
      show _ = Clean.base [] ++ _
      rw [Clean.base_nil]
      rfl
  · have hdrop : List.dropWhile (fun e => decide (e = "")) (root :: s) = root :: s := by
      simp [List.dropWhile, hroot]
    have hdata : root.data ≠ [] := by
      intro h
      exact hroot (String.ext h)
    unfold Join
    rw [hdrop]
    show Clean.chars (joinSlash ((root :: s).map String.data)) = _
    rw [List.map_cons, joinSlash_cons _ _ hs2, Clean.chars_append _ hdata _ hs2 hsimple2]

theorem simple_run : SimpleElem "run".data := ⟨by decide, by decide, by decide, by decide⟩

theorem simple_etc : SimpleElem "etc".data := ⟨by decide, by decide, by decide, by decide⟩

theorem simple_systemd : SimpleElem "systemd".data :=
  ⟨by decide, by decide, by decide, by decide⟩

theorem simple_group (u : Unit) : SimpleElem u.Group.data := by
  unfold Unit.Group
  simp only
  split
  · exact ⟨by decide, by decide, by decide, by decide⟩
  · exact ⟨by decide, by decide, by decide, by decide⟩

theorem Clean.foldl_kept (rooted : Bool) (out l : List (List Char))
    (hdd : ¬ ['.', '.'] ∈ l) :
    l.foldl (Clean.step rooted) out = (l.filter Clean.isKept).reverse ++ out := by
  induction l generalizing out with
  | nil => simp
  | cons e l ih =>
    have he : e ≠ ['.', '.'] := fun h => hdd (by simp [h])
    have hl : ¬ ['.', '.'] ∈ l := fun h => hdd (List.mem_cons_of_mem _ h)
    rw [List.foldl_cons, ih _ hl]
    by_cases h1 : e = [] ∨ e = ['.']
    · have hstep : Clean.step rooted out e = out := by
        simp [Clean.step, h1]
      have hneg : ¬ (Clean.isKept e = true) := by
        unfold Clean.isKept
        rw [decide_eq_true_eq]
        exact fun h => h h1
      rw [hstep, List.filter_cons_of_neg hneg]
    · have hstep : Clean.step rooted out e = e :: out := by
        simp [Clean.step, h1, he]
      have hpos : Clean.isKept e = true := by
        unfold Clean.isKept
        rw [decide_eq_true_eq]
        exact h1
      rw [hstep, List.filter_cons_of_pos hpos]
      simp

theorem Clean.kept_ne_nil (q e : List Char) (he : e ∈ Clean.kept q) : e ≠ [] := by
  unfold Clean.kept at he
  rw [List.mem_filter] at he
  have := he.2
  unfold Clean.isKept at this
  rw [decide_eq_true_eq] at this
  exact fun h => this (Or.inl h)

theorem Clean.chars_under (rooted : Bool) (kept0 s : List (List Char)) (q : List Char)
    (hstack : Clean.Stack rooted kept0.reverse) (hs : s ≠ [])
    (hsimple : ∀ e ∈ s, SimpleElem e) (hdd : ¬ ['.', '.'] ∈ splitSlash q) :
    Clean.chars ((Clean.lead rooted kept0 ++ joinSlash s) ++ '/' :: q) =
      (if rooted then ['/'] else []) ++ joinSlash (kept0 ++ s ++ Clean.kept q) := by
  obtain ⟨hr, hel⟩ := Clean.rerun rooted kept0 s hstack hs hsimple
  have hne0 : kept0 ++ s ≠ [] := by simp [hs]
  have hall0 : ∀ e ∈ kept0 ++ s, e ≠ [] := by
    intro e he
    rcases List.mem_append.1 he with h | h
    · exact (Clean.stack_mem _ _ hstack e (List.mem_reverse.2 h)).1
    · exact (hsimple e h).1
  have hD : Clean.lead rooted kept0 ++ joinSlash s ≠ [] := by
    rw [Clean.lead_append rooted kept0 s hs]
    have := joinSlash_ne_nil _ hne0 hall0
    simp [this]
  have hfold : (splitSlash (Clean.lead rooted kept0 ++ joinSlash s)).foldl
      (Clean.step rooted) [] = (kept0 ++ s).reverse := by
    have := congrArg List.reverse hel
    unfold Clean.elems at this
    rwa [List.reverse_reverse] at this
  have helems : Clean.elems rooted ((Clean.lead rooted kept0 ++ joinSlash s) ++ '/' :: q) =
      kept0 ++ s ++ Clean.kept q := by
    unfold Clean.elems Clean.kept
    rw [splitSlash_append, List.foldl_append, hfold, Clean.foldl_kept rooted _ _ hdd]
    simp
  have hall : ∀ e ∈ kept0 ++ s ++ Clean.kept q, e ≠ [] := by
    intro e he
    rcases List.mem_append.1 he with h | h
    · exact hall0 e h
    · exact Clean.kept_ne_nil q e h
  have hjs := joinSlash_ne_nil (kept0 ++ s ++ Clean.kept q) (by simp [hs]) hall
  rw [Clean.chars_eq, isRooted_append _ _ hD, hr, helems]
  cases rooted
  · rw [if_neg (by simp), if_neg hjs]
    simp
  · simp

theorem Join_pair (d name : String) (hd : d ≠ "") :
    (Join [d, name]).data = Clean.chars (d.data ++ '/' :: name.data) := by
  have hdrop : List.dropWhile (fun e => decide (e = "")) [d, name] = [d, name] := by
    simp [List.dropWhile, hd]
  unfold Join
  rw [hdrop]
  rfl

theorem tree_elems (root dir : String) (hdir : SimpleElem dir.data) :
    (Join [root, dir, "systemd"]).data =
      (if isRooted root.data then ['/'] else []) ++
        joinSlash (Clean.elems (isRooted root.data) root.data ++ [dir.data, "systemd".data]) := by
  have hsimple : ∀ e ∈ [dir, "systemd"], SimpleElem e.data := by
    intro e he
    simp only [List.mem_cons, List.mem_singleton, List.not_mem_nil, or_false] at he
    rcases he with rfl | rfl
    · exact hdir
    · exact simple_systemd
  rw [Join_cons root _ (by simp) hsimple, Clean.base_eq, List.map_cons, List.map_cons,
    List.map_nil, Clean.lead_append _ _ _ (by simp)]

theorem tree_data (root dir : String) (hdir : SimpleElem dir.data) :
    (Join [root, dir, "systemd"]).data = Clean.base root.data ++ dir.data ++ "/systemd".data := by
  have hsimple : ∀ e ∈ [dir, "systemd"], SimpleElem e.data := by
    intro e he
    simp only [List.mem_cons, List.mem_singleton, List.not_mem_nil, or_false] at he
    rcases he with rfl | rfl
    · exact hdir
    · exact simple_systemd
  rw [Join_cons root _ (by simp) hsimple]
  simp [joinSlash]

theorem PlaceUnit.dst_data (u : Unit) (root : String)
    (hdd : ¬ "..".data ∈ splitSlash u.Name.data) :
    (PlaceUnit.dst u root).data =
      (Join [root, if u.Runtime then "run" else "etc", "systemd"]).data ++
        '/' :: joinSlash (u.Group.data :: Clean.kept u.Name.data) := by
  have hdir : SimpleElem (if u.Runtime then "run" else "etc").data := by
    cases u.Runtime
    · exact simple_etc
    · exact simple_run
  have hsimple : ∀ e ∈ [(if u.Runtime then "run" else "etc"), "systemd", u.Group],
      SimpleElem e.data := by
    intro e he
    simp only [List.mem_cons, List.mem_singleton, List.not_mem_nil, or_false] at he
    rcases he with rfl | rfl | rfl
    · exact hdir
    · exact simple_systemd
    · exact simple_group u
  have hs : ∀ e ∈ [(if u.Runtime then "run" else "etc").data, "systemd".data, u.Group.data],
      SimpleElem e := by
    intro e he
    simp only [List.mem_cons, List.mem_singleton, List.not_mem_nil, or_false] at he
    rcases he with rfl | rfl | rfl
    · exact hdir
    · exact simple_systemd
    · exact simple_group u
  have h1 := Join_cons root _ (by simp) hsimple
  simp only [List.map_cons, List.map_nil] at h1
  rw [Clean.base_eq] at h1
  have hne : Join [root, if u.Runtime then "run" else "etc", "systemd", u.Group] ≠ "" := by
    intro h
    have h2 := congrArg String.data h
    rw [h1, Clean.lead_append _ _ _ (by simp)] at h2
    have := joinSlash_ne_nil (Clean.elems (isRooted root.data) root.data ++
      [(if u.Runtime then "run" else "etc").data, "systemd".data, u.Group.data]) (by simp)
      (by
        intro e he
        rcases List.mem_append.1 he with h | h
        · exact (Clean.stack_mem _ _ (Clean.stack_elems _ root.data) e (List.mem_reverse.2 h)).1
        · exact (hs e h).1)
    have h3 : ("" : String).data = [] := rfl
    rw [h3] at h2
    simp [this] at h2
  show (Join [Join [root, (if u.Runtime then "run" else "etc"), "systemd", u.Group],
    u.Name]).data = _
  rw [Join_pair _ _ hne, h1,
    Clean.chars_under _ _ _ _ (Clean.stack_elems _ root.data) (by simp) hs hdd,
    tree_elems root _ hdir]
  have happ : Clean.elems (isRooted root.data) root.data ++
      [(if u.Runtime then "run" else "etc").data, "systemd".data, u.Group.data] ++
        Clean.kept u.Name.data =
      (Clean.elems (isRooted root.data) root.data ++
        [(if u.Runtime then "run" else "etc").data, "systemd".data]) ++
        (u.Group.data :: Clean.kept u.Name.data) := by simp
  rw [happ, joinSlash_append _ _ (by simp) (by simp)]
  simp

theorem Clean.kept_single (name : List Char) (h : SimpleElem name) :
    Clean.kept name = [name] := by
  unfold Clean.kept
  rw [splitSlash_of_not_mem name h.2.2.2]
  have : Clean.isKept name = true := by
    unfold Clean.isKept
    rw [decide_eq_true_eq]
    rintro (h1 | h1)
    · exact h.1 h1
    · exact h.2.1 h1
  simp [this]

theorem PlaceUnit_writes {ε : Type} (fs : FileSystem ε) (hist : List FsCall) (u : Unit)
    (root : String) :
    (∀ f, FsCall.writeFile f ∈ (PlaceUnit fs hist u root).1 →
        f = ⟨PlaceUnit.dst u root, u.Content, "0644"⟩) ∧
      ((PlaceUnit fs hist u root).2.2 = none →
        (PlaceUnit fs hist u root).2.1 = PlaceUnit.dst u root ∧
        FsCall.writeFile ⟨PlaceUnit.dst u root, u.Content, "0644"⟩ ∈
          (PlaceUnit fs hist u root).1) := by
  cases hs : fs.statIsNotExist hist
      (Join [root, if u.Runtime then "run" else "etc", "systemd", u.Group]) with
  | false =>
    cases hw : fs.WriteFile (hist ++
        [FsCall.stat (Join [root, if u.Runtime then "run" else "etc", "systemd", u.Group])])
        ⟨PlaceUnit.dst u root, u.Content, "0644"⟩ with
    | none => simp [PlaceUnit, PlaceUnit.dst, hs, hw] at hw ⊢
    | some err => simp [PlaceUnit, PlaceUnit.dst, hs, hw] at hw ⊢
  | true =>
    cases hm : fs.MkdirAll (hist ++
        [FsCall.stat (Join [root, if u.Runtime then "run" else "etc", "systemd", u.Group])])
        (Join [root, if u.Runtime then "run" else "etc", "systemd", u.Group]) 0o755 with
    | some err => simp [PlaceUnit, PlaceUnit.dst, hs, hm] at hm ⊢
    | none =>
      cases hw : fs.WriteFile (hist ++
          [FsCall.stat (Join [root, if u.Runtime then "run" else "etc", "systemd", u.Group]),
            FsCall.mkdirAll
              (Join [root, if u.Runtime then "run" else "etc", "systemd", u.Group]) 0o755])
          ⟨PlaceUnit.dst u root, u.Content, "0644"⟩ with
      | none => simp [PlaceUnit, PlaceUnit.dst, hs, hm, hw] at hm hw ⊢
      | some err => simp [PlaceUnit, PlaceUnit.dst, hs, hm, hw] at hm hw ⊢

theorem Ext.scan_append (e rest acc : List Char) (he : ∀ c ∈ e, c ≠ '/' ∧ c ≠ '.') :
    Ext.scan (e ++ rest) acc = Ext.scan rest (e.reverse ++ acc) := by
  induction e generalizing acc with
  | nil => simp
  | cons c e ih =>
    have hc := he c (List.mem_cons_self _ _)
    have he2 : ∀ d ∈ e, d ≠ '/' ∧ d ≠ '.' := fun d hd => he d (List.mem_cons_of_mem _ hd)
    simp [Ext.scan, hc.1, hc.2, ih _ he2]

theorem Ext.split (l : List Char) :
    ∃ e rest, l = e ++ rest ∧ (∀ c ∈ e, c ≠ '/' ∧ c ≠ '.') ∧
      (rest = [] ∨ ∃ p, rest = '/' :: p ∨ rest = '.' :: p) := by
  induction l with
  | nil => exact ⟨[], [], rfl, by simp, Or.inl rfl⟩
  | cons c l ih =>
    by_cases h1 : c = '/'
    · exact ⟨[], c :: l, rfl, by simp, Or.inr ⟨l, Or.inl (by rw [h1])⟩⟩
    · by_cases h2 : c = '.'
      · exact ⟨[], c :: l, rfl, by simp, Or.inr ⟨l, Or.inr (by rw [h2])⟩⟩
      · obtain ⟨e, rest, hl, he, hr⟩ := ih
        refine ⟨c :: e, rest, by simp [hl], ?_, hr⟩
        intro d hd
        rcases List.mem_cons.1 hd with rfl | hd
        · exact ⟨h1, h2⟩
        · exact he d hd

theorem dropWhile_none {α : Type} (p : α → Bool) (e : List α) (he : ∀ c ∈ e, p c = false) :
    e.dropWhile p = e := by
  cases e with
  | nil => rfl
  | cons c e =>
    have hc := he c (List.mem_cons_self _ _)
    simp [List.dropWhile, hc]

theorem Ext.scan_dot (p acc : List Char) : Ext.scan ('.' :: p) acc = '.' :: acc := by
  simp [Ext.scan]

theorem Ext.scan_slash (p acc : List Char) : Ext.scan ('/' :: p) acc = [] := by
  simp [Ext.scan]

theorem TrimLeft_dot (e : List Char) (he : ∀ c ∈ e, c ≠ '.') :
    TrimLeft ⟨'.' :: e⟩ "." = ⟨e⟩ := by
  have h : (List.dropWhile (fun c => ['.'].contains c) ('.' :: e)) = e := by
    rw [List.dropWhile_cons]
    have h0 : ['.'].contains '.' = true := by decide
    rw [if_pos h0]
    refine dropWhile_none _ e (fun c hc => ?_)
    have := he c hc
    simp [this]
  show String.mk (List.dropWhile (fun c => ['.'].contains c) ('.' :: e)) = ⟨e⟩
  rw [h]

theorem TrimLeft_nil (cutset : String) : TrimLeft ⟨[]⟩ cutset = "" := rfl

/-- The value of `Type()` when the name ends in `.` followed by characters
that are neither dots nor slashes. -/
theorem Type_of_suffix (stem e : List Char) (runtime : Bool) (content : String)
    (he : ∀ c ∈ e, c ≠ '/' ∧ c ≠ '.') :
    Unit.Type ⟨⟨stem ++ '.' :: e⟩, runtime, content⟩ = ⟨e⟩ := by
  have h1 : (stem ++ '.' :: e).reverse = e.reverse ++ '.' :: stem.reverse := by simp
  have he2 : ∀ c ∈ e.reverse, c ≠ '/' ∧ c ≠ '.' := fun c hc => he c (List.mem_reverse.1 hc)
  simp only [Unit.Type, Ext, h1, Ext.scan_append _ _ _ he2, Ext.scan_dot,
    List.reverse_reverse, List.append_nil]
  exact TrimLeft_dot e (fun c hc => (he c hc).2)

/-- The value of `Type()` when the final slash-separated element of the name
has no dot. -/
theorem Type_of_no_dot (dir base : List Char) (runtime : Bool) (content : String)
    (hb : ∀ c ∈ base, c ≠ '/' ∧ c ≠ '.') (hd : dir = [] ∨ dir.getLast? = some '/') :
    Unit.Type ⟨⟨dir ++ base⟩, runtime, content⟩ = "" := by
  have hb2 : ∀ c ∈ base.reverse, c ≠ '/' ∧ c ≠ '.' := fun c hc => hb c (List.mem_reverse.1 hc)
  simp only [Unit.Type, Ext, List.reverse_append, Ext.scan_append _ _ _ hb2]
  rcases hd with rfl | hd
  · simp only [List.reverse_nil, Ext.scan]
    rfl
  · have : ∃ p, dir.reverse = '/' :: p := by
      cases hr : dir.reverse with
      | nil => simp at hr; subst hr; simp at hd
      | cons c p =>
        have : dir = p.reverse ++ [c] := by
          have := congrArg List.reverse hr; simpa using this
        subst this
        simp at hd
        exact ⟨p, by rw [hd]⟩
    obtain ⟨p, hp⟩ := this
    rw [hp, Ext.scan_slash]
    rfl

theorem Ext.split_unique (e1 e2 r1 r2 : List Char) (c1 c2 : Char)
    (h1 : ∀ c ∈ e1, c ≠ '/' ∧ c ≠ '.') (h2 : ∀ c ∈ e2, c ≠ '/' ∧ c ≠ '.')
    (hc1 : c1 = '/' ∨ c1 = '.') (hc2 : c2 = '/' ∨ c2 = '.')
    (h : e1 ++ c1 :: r1 = e2 ++ c2 :: r2) : e1 = e2 ∧ c1 = c2 ∧ r1 = r2 := by
  induction e1 generalizing e2 with
  | nil =>
    cases e2 with
    | nil => simpa using h
    | cons d e2 =>
      simp only [List.nil_append, List.cons_append, List.cons.injEq] at h
      have := h2 d (List.mem_cons_self _ _)
      rw [← h.1] at this
      rcases hc1 with hc | hc
      · exact absurd hc this.1
      · exact absurd hc this.2
  | cons d e1 ih =>
    cases e2 with
    | nil =>
      simp only [List.nil_append, List.cons_append, List.cons.injEq] at h
      have := h1 d (List.mem_cons_self _ _)
      rw [h.1] at this
      rcases hc2 with hc | hc
      · exact absurd hc this.1
      · exact absurd hc this.2
    | cons d2 e2 =>
      simp only [List.cons_append, List.cons.injEq] at h
      obtain ⟨ha, hb, hc⟩ := ih e2 (fun c hc => h1 c (List.mem_cons_of_mem _ hc))
        (fun c hc => h2 c (List.mem_cons_of_mem _ hc)) h.2
      exact ⟨by rw [h.1, ha], hb, hc⟩

/-- `Type()` is a given non-empty extension without dots and slashes exactly
when the name ends in a dot followed by that extension. -/
theorem Type_eq_iff (name : String) (runtime : Bool) (content : String) (x : List Char)
    (hx : x ≠ []) (hok : ∀ c ∈ x, c ≠ '/' ∧ c ≠ '.') :
    Unit.Type ⟨name, runtime, content⟩ = ⟨x⟩ ↔ ('.' :: x) <:+ name.data := by
  obtain ⟨e, rest, hl, he, hr⟩ := Ext.split name.data.reverse
  have hname : name = ⟨rest.reverse ++ e.reverse⟩ := by
    have := congrArg List.reverse hl
    simp only [List.reverse_reverse, List.reverse_append] at this
    apply String.ext
    exact this
  have he2 : ∀ c ∈ e.reverse, c ≠ '/' ∧ c ≠ '.' := fun c hc => he c (List.mem_reverse.1 hc)
  have hok2 : ∀ c ∈ x.reverse, c ≠ '/' ∧ c ≠ '.' := fun c hc => hok c (List.mem_reverse.1 hc)
  -- a suffix `.x` pins down the decomposition of the reversed name
  have key : ('.' :: x) <:+ name.data → rest = '.' :: rest.tail ∧ e.reverse = x := by
    rintro ⟨s, hs⟩
    have h2 : e ++ rest = x.reverse ++ '.' :: s.reverse := by
      rw [← hl, ← hs]; simp
    rcases hr with rfl | ⟨p, rfl | rfl⟩
    · exfalso
      have hmem : '.' ∈ e := by
        have : '.' ∈ e ++ [] := by rw [h2]; simp
        simpa using this
      exact (he _ hmem).2 rfl
    · have := Ext.split_unique e x.reverse p s.reverse '/' '.' he hok2 (Or.inl rfl) (Or.inr rfl) h2
      exact absurd this.2.1 (by decide)
    · have := Ext.split_unique e x.reverse p s.reverse '.' '.' he hok2 (Or.inr rfl) (Or.inr rfl) h2
      refine ⟨rfl, ?_⟩
      rw [this.1]; simp
  constructor
  · intro hT
    rcases hr with rfl | ⟨p, rfl | rfl⟩
    · rw [hname] at hT
      have h0 := Type_of_no_dot [] e.reverse runtime content he2 (Or.inl rfl)
      simp only [List.reverse_nil] at hT
      rw [h0] at hT
      exact absurd (congrArg String.data hT).symm hx
    · have hd : ('/' :: p).reverse = [] ∨ ('/' :: p).reverse.getLast? = some '/' := by
        right; simp
      rw [hname, Type_of_no_dot _ e.reverse runtime content he2 hd] at hT
      exact absurd (congrArg String.data hT).symm hx
    · have h3 : name = ⟨p.reverse ++ '.' :: e.reverse⟩ := by
        rw [hname]; simp
      rw [h3, Type_of_suffix _ _ runtime content he2] at hT
      have hx2 : e.reverse = x := congrArg String.data hT
      rw [h3, ← hx2]
      exact ⟨p.reverse, rfl⟩
  · intro hs
    obtain ⟨hrest, hex⟩ := key hs
    have h3 : name = ⟨rest.tail.reverse ++ '.' :: e.reverse⟩ := by
      rw [hname]
      conv_lhs => rw [hrest]
      simp
    rw [h3, Type_of_suffix _ _ runtime content he2, hex]

theorem last_failure {α ε : Type} (err : α → Option ε) (pre : List α) (b : α)
    (hpre : ∀ r ∈ pre, err r = none) (pre2 : List α) (r : α) (post2 : List α)
    (h : pre ++ [b] = pre2 ++ r :: post2) (hr : err r ≠ none) : post2 = [] ∧ r = b := by
  rcases List.eq_nil_or_concat post2 with rfl | ⟨init, l, rfl⟩
  · have := List.append_inj' h (by simp)
    simp at this
    exact ⟨rfl, this.2.symm⟩
  · exfalso
    have h2 : pre ++ [b] = (pre2 ++ r :: init) ++ [l] := by simp [h]
    have := List.append_inj' h2 (by simp)
    have hmem : r ∈ pre := by rw [this.1]; simp
    exact hr (hpre r hmem)

theorem separateNetworkUnits.loop_eq (units a b : List Unit) :
    separateNetworkUnits.loop units a b =
      (a ++ units.filter (fun u => u.Group = "network"),
       b ++ units.filter (fun u => ¬ u.Group = "network")) := by
  induction units generalizing a b with
  | nil => simp [separateNetworkUnits.loop]
  | cons u us ih =>
    by_cases h : u.Group = "network"
    · simp [separateNetworkUnits.loop, h, ih]
    · simp [separateNetworkUnits.loop, h, ih]

theorem separateNetworkUnits_eq (units : List Unit) :
    separateNetworkUnits units =
      (units.filter (fun u => u.Group = "network"),
       units.filter (fun u => ¬ u.Group = "network")) := by
  simp [separateNetworkUnits, separateNetworkUnits.loop_eq]

theorem StopsAtFirstError.cons {ε : Type} {rs : List (Restart ε)} {e : Option ε}
    {names : List String} (n : String) (h : StopsAtFirstError rs e names) :
    StopsAtFirstError (⟨n, none⟩ :: rs) e (n :: names) := by
  rcases h with ⟨h1, h2, h3⟩ | ⟨pre, bad, x, post, h1, h2, h3, h4⟩
  · left
    refine ⟨by simp [h1], ?_, h3⟩
    intro r hr
    rcases List.mem_cons.1 hr with rfl | hr
    · rfl
    · exact h2 r hr
  · right
    refine ⟨⟨n, none⟩ :: pre, bad, x, post, by simp [h1], ?_, h3, by simp [h4]⟩
    intro r hr
    rcases List.mem_cons.1 hr with rfl | hr
    · rfl
    · exact h2 r hr

theorem StartUnits.loop_stops {ε : Type} (m : Manager ε) (hist : List (Restart ε))
    (units : List Unit) :
    StopsAtFirstError (StartUnits.loop m hist units).1 (StartUnits.loop m hist units).2
      (units.map Unit.Name) := by
  induction units generalizing hist with
  | nil => left; simp [StartUnits.loop]
  | cons u us ih =>
    cases h : RestartUnitByName m hist u.Name with
    | some err =>
      right
      refine ⟨[], u.Name, err, us.map Unit.Name, ?_, by simp, ?_, by simp⟩
      · simp [StartUnits.loop, h]
      · simp [StartUnits.loop, h]
    | none =>
      have := StopsAtFirstError.cons u.Name (ih (hist ++ [⟨u.Name, none⟩]))
      simpa [StartUnits.loop, h] using this

theorem StartUnits_spec {ε : Type} (m : Manager ε) (hist : List (Restart ε))
    (units : List Unit) :
    StopsAtFirstError (StartUnits m hist units).1 (StartUnits m hist units).2
      (StartUnits.plan units) := by
  by_cases hnet : ∃ u ∈ units, u.Group = "network"
  · have hlen : (units.filter (fun u => u.Group = "network")).length > 0 := by
      obtain ⟨u, hu, hg⟩ := hnet
      apply List.length_pos_of_mem (a := u)
      simp [List.mem_filter, hu, hg]
    cases h : RestartUnitByName m hist "systemd-networkd.service" with
    | some err =>
      right
      refine ⟨[], "systemd-networkd.service", err,
        (units.filter (fun u => ¬ u.Group = "network")).map Unit.Name, ?_, by simp, ?_, ?_⟩
      · simp [StartUnits, separateNetworkUnits_eq, hlen, h]
      · simp [StartUnits, separateNetworkUnits_eq, hlen, h]
      · simp [StartUnits.plan, hnet]
    | none =>
      have := StopsAtFirstError.cons "systemd-networkd.service"
        (StartUnits.loop_stops m (hist ++ [⟨"systemd-networkd.service", none⟩])
          (units.filter (fun u => ¬ u.Group = "network")))
      simpa [StartUnits, separateNetworkUnits_eq, hlen, h, StartUnits.plan, hnet] using this
  · have hlen : ¬ (units.filter (fun u => u.Group = "network")).length > 0 := by
      intro hpos
      obtain ⟨u, hu⟩ := List.exists_mem_of_length_pos hpos
      simp [List.mem_filter] at hu
      exact hnet ⟨u, hu.1, hu.2⟩
    have := StartUnits.loop_stops m hist (units.filter (fun u => ¬ u.Group = "network"))
    simpa [StartUnits, separateNetworkUnits_eq, hlen, StartUnits.plan, hnet] using this

theorem Group_congr (u v : Unit) (h : u.Name = v.Name) : u.Group = v.Group := by
  simp [Unit.Group, Unit.Type, h]

theorem StartUnits.loop_records {ε : Type} (m : Manager ε) (hist : List (Restart ε))
    (units : List Unit) (pre : List (Restart ε)) (r : Restart ε) (post : List (Restart ε))
    (h : (StartUnits.loop m hist units).1 = pre ++ r :: post) :
    r.err = RestartUnitByName m (hist ++ pre) r.name := by
  induction units generalizing hist pre with
  | nil => simp [StartUnits.loop] at h
  | cons u us ih =>
    cases hr : RestartUnitByName m hist u.Name with
    | some err =>
      simp only [StartUnits.loop, hr] at h
      cases pre with
      | nil =>
        simp at h
        rw [← h.1]
        simp [hr]
      | cons p pre => simp at h
    | none =>
      simp only [StartUnits.loop, hr] at h
      cases pre with
      | nil =>
        simp at h
        rw [← h.1]
        simp [hr]
      | cons p pre =>
        simp only [List.cons_append, List.cons.injEq] at h
        have := ih (hist ++ [⟨u.Name, none⟩]) pre h.2
        rw [this, ← h.1]
        simp

theorem StartUnits_truthful {ε : Type} (m : Manager ε) (hist : List (Restart ε))
    (units : List Unit) (pre : List (Restart ε)) (r : Restart ε) (post : List (Restart ε))
    (h : (StartUnits m hist units).1 = pre ++ r :: post) :
    r.err = RestartUnitByName m (hist ++ pre) r.name := by
  by_cases hlen : (separateNetworkUnits units).1.length > 0
  · cases hr : RestartUnitByName m hist "systemd-networkd.service" with
    | some err =>
      simp only [StartUnits, hlen, hr, ↓reduceIte] at h
      cases pre with
      | nil =>
        simp at h
        rw [← h.1]
        simp [hr]
      | cons p pre => simp at h
    | none =>
      simp only [StartUnits, hlen, hr, ↓reduceIte] at h
      cases pre with
      | nil =>
        simp at h
        rw [← h.1]
        simp [hr]
      | cons p pre =>
        simp only [List.cons_append, List.cons.injEq] at h
        have := StartUnits.loop_records m _ _ pre r post h.2
        rw [this, ← h.1]
        simp
  · simp only [StartUnits, hlen, ↓reduceIte] at h
    exact StartUnits.loop_records m _ _ pre r post h

theorem firstSeen_filter {α : Type} [DecidableEq α] (p : α → Bool) (xs : List α) :
    firstSeen (xs.filter p) = (firstSeen xs).filter p := by
  induction xs with
  | nil => rfl
  | cons x xs ih =>
    by_cases hp : p x = true
    · simp only [List.filter_cons_of_pos hp, firstSeen, ih, List.filter_filter]
      congr 1
      apply List.filter_congr
      intro y _
      exact Bool.and_comm _ _
    · simp only [List.filter_cons_of_neg hp, firstSeen, ih, List.filter_filter]
      apply List.filter_congr
      intro y _
      by_cases hy : y = x
      · subst hy; simp [hp]
      · simp [hy]

theorem mem_firstSeen {α : Type} [DecidableEq α] (xs : List α) (a : α) :
    a ∈ firstSeen xs ↔ a ∈ xs := by
  induction xs with
  | nil => simp [firstSeen]
  | cons x xs ih =>
    by_cases h : a = x
    · simp [firstSeen, h]
    · simp [firstSeen, h, List.mem_filter, ih]

theorem nodup_firstSeen {α : Type} [DecidableEq α] (xs : List α) : (firstSeen xs).Nodup := by
  induction xs with
  | nil => simp [firstSeen]
  | cons x xs ih =>
    simp only [firstSeen, List.nodup_cons, List.mem_filter]
    exact ⟨by simp, ih.filter _⟩

theorem firstSeen_sublist {α : Type} [DecidableEq α] (xs : List α) :
    (firstSeen xs).Sublist xs := by
  induction xs with
  | nil => simp [firstSeen]
  | cons x xs ih =>
    simp only [firstSeen]
    exact ((List.filter_sublist _).trans ih).cons₂ x

theorem handleNet.pending_nil (configured_eths : List String) :
    handleNet.pending [] configured_eths = [] := rfl

theorem handleNet.pending_start (eths : List String) :
    handleNet.pending eths [] = firstSeen eths := by
  unfold handleNet.pending
  congr 1
  apply List.filter_eq_self.2
  intro a _
  simp

theorem handleNet.pending_skip (eth : String) (eths configured_eths : List String)
    (h : eth ∈ configured_eths) :
    handleNet.pending (eth :: eths) configured_eths = handleNet.pending eths configured_eths := by
  unfold handleNet.pending
  rw [List.filter_cons_of_neg (by simpa using h)]

theorem handleNet.pending_take (eth : String) (eths configured_eths : List String)
    (h : ¬ eth ∈ configured_eths) :
    handleNet.pending (eth :: eths) configured_eths =
      eth :: handleNet.pending eths (eth :: configured_eths) := by
  unfold handleNet.pending
  rw [List.filter_cons_of_pos (by simpa using h)]
  have hfilter : (eths.filter (fun e => ¬ e ∈ eth :: configured_eths)) =
      (eths.filter (fun e => ¬ e ∈ configured_eths)).filter (fun y => ¬ y = eth) := by
    rw [List.filter_filter]
    apply List.filter_congr
    intro y _
    by_cases h1 : y = eth <;> by_cases h2 : y ∈ configured_eths <;> simp [h1, h2]
  rw [hfilter, firstSeen_filter]
  rfl

theorem handleNet.loop_cases {ε : Type} (host : Host ε) (file_name : String)
    (hist : List (Command ε)) (eths configured_eths : List String) (units : List Unit) :
    ((handleNet.loop host file_name hist eths configured_eths units).1.map
          (fun c => (c.name, c.arg, c.err)) =
        (handleNet.pending eths configured_eths).map
          (fun t => ("./scripts/gentoo-to-networkd", [t, file_name], none)) ∧
      (handleNet.loop host file_name hist eths configured_eths units).2 =
        Except.ok ⟨units ++ List.zipWith
          (fun t c => ⟨"50-" ++ t ++ ".network", false, c.out⟩)
          (handleNet.pending eths configured_eths)
          (handleNet.loop host file_name hist eths configured_eths units).1⟩) ∨
    (∃ pre bad x post,
      (handleNet.loop host file_name hist eths configured_eths units).1 = pre ++ [bad] ∧
      (∀ c ∈ pre, c.err = none) ∧ bad.err = some x ∧
      (handleNet.loop host file_name hist eths configured_eths units).2 = Except.error x ∧
      (handleNet.pending eths configured_eths).map
          (fun t => ("./scripts/gentoo-to-networkd", [t, file_name])) =
        pre.map (fun c => (c.name, c.arg)) ++ (bad.name, bad.arg) :: post) := by
  induction eths generalizing hist configured_eths units with
  | nil => left; simp [handleNet.loop, handleNet.pending_nil]
  | cons eth eths ih =>
    by_cases hmem : eth ∈ configured_eths
    · have := ih hist configured_eths units
      rw [handleNet.pending_skip _ _ _ hmem]
      simpa [handleNet.loop, hmem] using this
    · rw [handleNet.pending_take _ _ _ hmem]
      cases herr : (host.CombinedOutput hist "./scripts/gentoo-to-networkd" [eth, file_name]).2 with
      | some err =>
        right
        refine ⟨[], ⟨"./scripts/gentoo-to-networkd", [eth, file_name],
          (host.CombinedOutput hist "./scripts/gentoo-to-networkd" [eth, file_name]).1, some err⟩,
          err, (handleNet.pending eths (eth :: configured_eths)).map
            (fun t => ("./scripts/gentoo-to-networkd", [t, file_name])),
          ?_, by simp, rfl, ?_, ?_⟩
        · simp [handleNet.loop, hmem, herr]
        · simp [handleNet.loop, hmem, herr]
        · simp
      | none =>
        rcases ih (hist ++ [⟨"./scripts/gentoo-to-networkd", [eth, file_name],
          (host.CombinedOutput hist "./scripts/gentoo-to-networkd" [eth, file_name]).1, none⟩])
          (eth :: configured_eths)
          (units ++ [⟨"50-" ++ eth ++ ".network", false,
            (host.CombinedOutput hist "./scripts/gentoo-to-networkd" [eth, file_name]).1⟩])
          with ⟨h1, h2⟩ | ⟨pre, bad, x, post, h1, h2, h3, h4, h5⟩
        · left
          simp only [handleNet.loop, hmem, herr, ↓reduceIte]
          refine ⟨by simp [h1], ?_⟩
          rw [h2]
          simp
        · right
          refine ⟨⟨"./scripts/gentoo-to-networkd", [eth, file_name],
            (host.CombinedOutput hist "./scripts/gentoo-to-networkd" [eth, file_name]).1, none⟩
            :: pre, bad, x, post, ?_, ?_, h3, ?_, ?_⟩
          · simp [handleNet.loop, hmem, herr, h1]
          · intro c hc
            rcases List.mem_cons.1 hc with rfl | hc
            · rfl
            · exact h2 c hc
          · simp [handleNet.loop, hmem, herr, h4]
          · rw [List.map_cons, h5]
            simp

theorem handleNet.loop_outputs {ε : Type} (host : Host ε) (file_name : String)
    (hist : List (Command ε)) (eths configured_eths : List String) (units : List Unit)
    (pre : List (Command ε)) (c : Command ε) (post : List (Command ε))
    (h : (handleNet.loop host file_name hist eths configured_eths units).1 = pre ++ c :: post) :
    (c.out, c.err) = host.CombinedOutput (hist ++ pre) c.name c.arg := by
  induction eths generalizing hist configured_eths units pre with
  | nil => simp [handleNet.loop] at h
  | cons eth eths ih =>
    by_cases hmem : eth ∈ configured_eths
    · simp only [handleNet.loop, hmem, ↓reduceIte] at h
      exact ih hist configured_eths units pre h
    · cases herr : (host.CombinedOutput hist "./scripts/gentoo-to-networkd" [eth, file_name]).2 with
      | some err =>
        simp only [handleNet.loop, hmem, herr, ↓reduceIte] at h
        cases pre with
        | nil =>
          simp at h
          rw [← h.1]
          simp [← herr]
        | cons p pre => simp at h
      | none =>
        simp only [handleNet.loop, hmem, herr, ↓reduceIte] at h
        cases pre with
        | nil =>
          simp at h
          rw [← h.1]
          simp [← herr]
        | cons p pre =>
          simp only [List.cons_append, List.cons.injEq] at h
          have := ih _ _ _ pre h.2
          rw [this, ← h.1]
          simp

theorem handleNet_eq_loop {ε : Type} (host : Host ε) (hist : List (Command ε))
    (file_name text : String) (hread : host.ReadFile file_name = Except.ok text) :
    handleNet host hist file_name =
      handleNet.loop host file_name hist (re.FindAllString text) [] [] := by
  simp [handleNet, hread]

theorem re.matchAt_some (l m : List Char) (h : re.matchAt l = some m) :
    ∃ ds rest, ds ≠ [] ∧ (∀ d ∈ ds, d.isDigit = true) ∧ m = 'e' :: 't' :: 'h' :: ds ∧
      l = m ++ rest ∧ (∀ d rest2, rest = d :: rest2 → d.isDigit = false) := by
  match l, h with
  | c1 :: c2 :: c3 :: rest, h =>
    simp only [re.matchAt] at h
    split at h
    · rename_i hc
      obtain ⟨rfl, rfl, rfl⟩ := hc
      cases hds : rest.takeWhile Char.isDigit with
      | nil => simp [hds] at h
      | cons d ds =>
        simp only [hds, Option.some.injEq] at h
        refine ⟨d :: ds, rest.dropWhile Char.isDigit, by simp, ?_, h.symm, ?_, ?_⟩
        · intro x hx
          rw [← hds] at hx
          exact (List.mem_takeWhile_imp hx)
        · rw [← h, ← hds]
          simp [List.takeWhile_append_dropWhile]
        · intro x rest2 hx
          have := List.head_dropWhile_not Char.isDigit rest (by rw [hx]; simp)
          simpa [hx] using this
    · simp at h
  | [], h => simp [re.matchAt] at h
  | [_], h => simp [re.matchAt] at h
  | [_, _], h => simp [re.matchAt] at h

theorem re.scan_shape (skip : Nat) (l m : List Char) (h : m ∈ re.scan skip l) :
    (∃ ds, ds ≠ [] ∧ (∀ d ∈ ds, d.isDigit = true) ∧ m = 'e' :: 't' :: 'h' :: ds) ∧
      m <:+: l := by
  induction l generalizing skip with
  | nil => simp [re.scan] at h
  | cons c cs ih =>
    cases skip with
    | succ k =>
      simp only [re.scan] at h
      obtain ⟨h1, h2⟩ := ih k h
      exact ⟨h1, h2.trans (List.infix_cons (List.infix_refl _))⟩
    | zero =>
      simp only [re.scan] at h
      cases hm : re.matchAt (c :: cs) with
      | none =>
        simp only [hm] at h
        obtain ⟨h1, h2⟩ := ih 0 h
        exact ⟨h1, h2.trans (List.infix_cons (List.infix_refl _))⟩
      | some m2 =>
        simp only [hm, List.mem_cons] at h
        rcases h with rfl | h
        · obtain ⟨ds, rest, hds, hdig, hm2, hl, _⟩ := re.matchAt_some _ _ hm
          exact ⟨⟨ds, hds, hdig, hm2⟩, ⟨[], rest, by simp [hl.symm]⟩⟩
        · obtain ⟨h1, h2⟩ := ih _ h
          exact ⟨h1, h2.trans (List.infix_cons (List.infix_refl _))⟩

theorem unitName_injective (t1 t2 : String)
    (h : "50-" ++ t1 ++ ".network" = "50-" ++ t2 ++ ".network") : t1 = t2 := by
  have := congrArg String.data h
  simp only [String.data_append] at this
  have h2 := List.append_cancel_right this
  have h3 := List.append_cancel_left h2
  exact String.ext h3

theorem zipWith_names {ε : Type} (toks : List String) (cmds : List (Command ε))
    (h : cmds.length = toks.length) :
    (List.zipWith (fun t c => (⟨"50-" ++ t ++ ".network", false, c.out⟩ : Unit)) toks cmds).map
        Unit.Name = toks.map (fun t => "50-" ++ t ++ ".network") ∧
    (List.zipWith (fun t c => (⟨"50-" ++ t ++ ".network", false, c.out⟩ : Unit)) toks cmds).map
        Unit.Content = cmds.map Command.out := by
  induction toks generalizing cmds with
  | nil =>
    cases cmds with
    | nil => simp
    | cons c cs => simp at h
  | cons t ts ih =>
    cases cmds with
    | nil => simp at h
    | cons c cs =>
      simp only [List.length_cons, Nat.add_right_cancel_iff] at h
      simp [ih cs h]

theorem takeWhile_digits (ds b : List Char) (hdig : ∀ d ∈ ds, d.isDigit = true)
    (hb : ∀ d rest, b = d :: rest → d.isDigit = false) :
    (ds ++ b).takeWhile Char.isDigit = ds := by
  induction ds with
  | nil =>
    cases b with
    | nil => rfl
    | cons d rest => simp [List.takeWhile, hb d rest rfl]
  | cons d ds ih =>
    have hd := hdig d (by simp)
    simp [List.takeWhile, hd, ih (fun x hx => hdig x (List.mem_cons_of_mem _ hx))]

theorem re.matchAt_here (ds b : List Char) (hds : ds ≠ [])
    (hdig : ∀ d ∈ ds, d.isDigit = true) (hb : ∀ d rest, b = d :: rest → d.isDigit = false) :
    re.matchAt ('e' :: 't' :: 'h' :: (ds ++ b)) = some ('e' :: 't' :: 'h' :: ds) := by
  cases ds with
  | nil => exact absurd rfl hds
  | cons d ds =>
    simp only [re.matchAt, and_self, ↓reduceIte]
    rw [takeWhile_digits (d :: ds) b hdig hb]

theorem re.scan_complete (skip : Nat) (a ds b : List Char) (hskip : skip ≤ a.length)
    (hds : ds ≠ []) (hdig : ∀ d ∈ ds, d.isDigit = true)
    (hb : ∀ d rest, b = d :: rest → d.isDigit = false) :
    ('e' :: 't' :: 'h' :: ds) ∈ re.scan skip (a ++ 'e' :: 't' :: 'h' :: (ds ++ b)) := by
  induction a generalizing skip with
  | nil =>
    have : skip = 0 := by simpa using hskip
    subst this
    simp only [List.nil_append, re.scan, re.matchAt_here ds b hds hdig hb]
    simp
  | cons c a ih =>
    cases skip with
    | succ k =>
      simp only [List.cons_append, re.scan]
      exact ih k (by simpa using hskip)
    | zero =>
      simp only [List.cons_append, re.scan]
      cases hm : re.matchAt (c :: (a ++ 'e' :: 't' :: 'h' :: (ds ++ b))) with
      | none => exact ih 0 (Nat.zero_le _)
      | some m =>
        simp only [List.mem_cons]
        right
        apply ih
        -- the match cannot reach the `e` that follows `a`
        obtain ⟨ds2, rest, _, hdig2, hm2, hl, _⟩ := re.matchAt_some _ _ hm
        have hno : ∀ x ∈ m.tail, x ≠ 'e' := by
          intro x hx
          rw [hm2] at hx
          simp only [List.tail_cons, List.mem_cons] at hx
          rcases hx with rfl | rfl | hx
          · decide
          · decide
          · intro hxe
            have := hdig2 x hx
            rw [hxe] at this
            revert this
            decide
        have htail : a ++ 'e' :: 't' :: 'h' :: (ds ++ b) = m.tail ++ rest := by
          rw [hm2] at hl ⊢
          simp only [List.cons_append, List.cons.injEq] at hl
          simpa using hl.2
        have hlen : m.tail.length ≤ a.length := by
          by_contra hlt
          push_neg at hlt
          have h1 := congrArg (List.take (a.length + 1)) htail
          have h2 : List.take (a.length + 1) (a ++ 'e' :: 't' :: 'h' :: (ds ++ b)) =
              a ++ ['e'] := by
            rw [List.take_append_eq_append_take]
            simp
          have h3 : List.take (a.length + 1) (m.tail ++ rest) =
              List.take (a.length + 1) m.tail :=
            List.take_append_of_le_length (Nat.succ_le_of_lt hlt)
          rw [h2, h3] at h1
          have hmem : 'e' ∈ List.take (a.length + 1) m.tail := by
            rw [← h1]; simp
          exact hno 'e' (List.mem_of_mem_take hmem) rfl
        have : m.length - 1 = m.tail.length := by simp
        rw [this]
        exact hlen

theorem runEvent_absent_key {ε : Type} (host : RunHost ε) (full_path watch_dir file_name : String)
    (hstat : host.Stat full_path = none)
    (hrel : host.Rel watch_dir full_path = Except.ok file_name)
    (hkey : Join ["/", file_name] ≠ "/etc/conf.d/net") :
    (runEvent host full_path watch_dir).ret = none ∧
      (runEvent host full_path watch_dir).commands = [] ∧
      (runEvent host full_path watch_dir).configs = [] ∧
      (runEvent host full_path watch_dir).transients = [] := by
  simp [runEvent, hstat, hrel, fileHandlers, hkey]

/-! ## The claims -/

/-- C1: `Group()` is `"network"` exactly for the names that end in `.network`,
`.netdev` or `.link` (the names whose extension is one of the three) and
`"system"` for every other name, a name without extension included; two units
of the same name have the same group whatever their `Runtime` flag and
`Content` are. -/
theorem Group_spec (name : String) (runtime : Bool) (content : String) :
    Unit.Group ⟨name, runtime, content⟩ =
        (if ".network".data <:+ name.data ∨ ".netdev".data <:+ name.data ∨
            ".link".data <:+ name.data then "network" else "system") ∧
      ∀ (runtime2 : Bool) (content2 : String),
        Unit.Group ⟨name, runtime2, content2⟩ = Unit.Group ⟨name, runtime, content⟩ := by
  have h1 := Type_eq_iff name runtime content "network".data (by decide) (by decide)
  have h2 := Type_eq_iff name runtime content "netdev".data (by decide) (by decide)
  have h3 := Type_eq_iff name runtime content "link".data (by decide) (by decide)
  refine ⟨?_, fun _ _ => rfl⟩
  show (if Unit.Type ⟨name, runtime, content⟩ = "network" ∨
      Unit.Type ⟨name, runtime, content⟩ = "netdev" ∨
      Unit.Type ⟨name, runtime, content⟩ = "link" then "network" else "system") = _
  have e1 : (Unit.Type ⟨name, runtime, content⟩ = "network") = (".network".data <:+ name.data) :=
    propext h1
  have e2 : (Unit.Type ⟨name, runtime, content⟩ = "netdev") = (".netdev".data <:+ name.data) :=
    propext h2
  have e3 : (Unit.Type ⟨name, runtime, content⟩ = "link") = (".link".data <:+ name.data) :=
    propext h3
  simp only [e1, e2, e3]

/-- C2: when every restart request that `StartUnits` issues succeeds, the
requests are exactly: one restart of `systemd-networkd.service` if and only if
the batch has a network-group unit, then one restart by name for each
non-network unit in input order; `StartUnits` returns no error, and the name
of no network-group unit of the batch is among the requests. -/
theorem StartUnits_requests {ε : Type} (m : Manager ε) (hist : List (Restart ε))
    (units : List Unit) (hok : ∀ r ∈ (StartUnits m hist units).1, r.err = none) :
    (StartUnits m hist units).1.map Restart.name =
        (if ∃ u ∈ units, u.Group = "network" then ["systemd-networkd.service"] else []) ++
          (units.filter (fun u => ¬ u.Group = "network")).map Unit.Name ∧
      (StartUnits m hist units).2 = none ∧
      ∀ u ∈ units, u.Group = "network" →
        u.Name ∉ (StartUnits m hist units).1.map Restart.name := by
  have hnames : (StartUnits m hist units).1.map Restart.name = StartUnits.plan units ∧
      (StartUnits m hist units).2 = none := by
    rcases StartUnits_spec m hist units with ⟨h1, _, h3⟩ | ⟨pre, bad, x, post, h1, _, _, _⟩
    · exact ⟨h1, h3⟩
    · exfalso
      have := hok ⟨bad, some x⟩ (by rw [h1]; simp)
      simp at this
  refine ⟨hnames.1, hnames.2, ?_⟩
  intro u _ hg hmem
  rw [hnames.1] at hmem
  simp only [StartUnits.plan, List.mem_append, List.mem_map, List.mem_filter] at hmem
  rcases hmem with hmem | ⟨v, ⟨_, hv⟩, hname⟩
  · have hn : u.Name = "systemd-networkd.service" := by
      split at hmem
      · simpa using hmem
      · simp at hmem
    have : u.Group = Unit.Group ⟨"systemd-networkd.service", false, ""⟩ := Group_congr _ _ hn
    rw [hg] at this
    revert this
    decide
  · have := Group_congr v u hname
    rw [hg] at this
    simp [this] at hv

/-- C2 at a batch of three services and two network units on a manager that
accepts every request. -/
theorem StartUnits_requests_witness :
    (∀ r ∈ (StartUnits calmManager [] mixedBatch).1, r.err = none) ∧
      (StartUnits calmManager [] mixedBatch).1.map Restart.name =
        ["systemd-networkd.service", "a.service", "b.service", "c.service"] :=
  ⟨by decide, (StartUnits_requests calmManager [] mixedBatch (by decide)).1.trans (by decide)⟩

/-- C3: every request recorded for `StartUnits` carries the error
`RestartUnitByName` returned for it; a request that failed is the last one
issued and its error is the one `StartUnits` returns (so a failed restart of
the network subsystem leaves every non-network unit alone, and a failed unit
restart leaves the later units alone); `StartUnits` returns no error exactly
when every request it issued succeeded; and the requests issued are always an
initial part of the full sequence for the batch. -/
theorem StartUnits_first_error {ε : Type} (m : Manager ε) (hist : List (Restart ε))
    (units : List Unit) :
    (∀ pre r post, (StartUnits m hist units).1 = pre ++ r :: post →
        r.err = RestartUnitByName m (hist ++ pre) r.name ∧
        (r.err ≠ none → post = [] ∧ (StartUnits m hist units).2 = r.err)) ∧
      ((StartUnits m hist units).2 = none ↔ ∀ r ∈ (StartUnits m hist units).1, r.err = none) ∧
      (StartUnits m hist units).1.map Restart.name <+:
        (if ∃ u ∈ units, u.Group = "network" then ["systemd-networkd.service"] else []) ++
          (units.filter (fun u => ¬ u.Group = "network")).map Unit.Name := by
  have hspec := StartUnits_spec m hist units
  refine ⟨?_, ?_, ?_⟩
  · intro pre r post h
    refine ⟨StartUnits_truthful m hist units pre r post h, fun hr => ?_⟩
    rcases hspec with ⟨_, h2, _⟩ | ⟨pre1, bad, x, post1, h1, h2, h3, _⟩
    · exact absurd (h2 r (by rw [h]; simp)) hr
    · rw [h1] at h
      have := last_failure Restart.err pre1 ⟨bad, some x⟩ h2 pre r post h hr
      refine ⟨this.1, ?_⟩
      rw [h3, this.2]
  · rcases hspec with ⟨_, h2, h3⟩ | ⟨pre1, bad, x, post1, h1, _, h3, _⟩
    · exact ⟨fun _ => h2, fun _ => h3⟩
    · constructor
      · intro h; rw [h3] at h; simp at h
      · intro h
        have := h ⟨bad, some x⟩ (by rw [h1]; simp)
        simp at this
  · show _ <+: StartUnits.plan units
    rcases hspec with ⟨h1, _, _⟩ | ⟨pre1, bad, x, post1, h1, _, _, h4⟩
    · rw [h1]
    · rw [h1, h4]
      exact ⟨post1, by simp⟩

/-- C3 at a manager that refuses `b.service`: the request for `b.service` is
the third and last one, `c.service` is never requested, and the refusal is
what `StartUnits` returns. -/
theorem StartUnits_first_error_witness :
    (StartUnits brokenManager [] mixedBatch).1.map Restart.name =
        ["systemd-networkd.service", "a.service", "b.service"] ∧
      (StartUnits brokenManager [] mixedBatch).2 = some "job failed" :=
  ⟨by decide,
    (((StartUnits_first_error brokenManager [] mixedBatch).1
      [⟨"systemd-networkd.service", none⟩, ⟨"a.service", none⟩]
      ⟨"b.service", some "job failed"⟩ [] rfl).2 (by simp)).2⟩

/-- C4: on a readable source text on which every translator run succeeds,
`handleNet` runs `./scripts/gentoo-to-networkd` with the arguments
`(token, path)` once for each distinct match of `eth[\d]+` in the text, in the
order of first occurrence, and runs nothing else.  The distinct matches are
free of repetitions and are exactly the members of the match list in its
order; every match is `eth` followed by a non-empty run of digits and occurs
in the text, and every `eth` followed by a maximal non-empty run of digits in
the text is a match. -/
theorem handleNet_invocations {ε : Type} (host : Host ε) (hist : List (Command ε))
    (file_name text : String) (hread : host.ReadFile file_name = Except.ok text)
    (hok : ∀ c ∈ (handleNet host hist file_name).1, c.err = none) :
    (handleNet host hist file_name).1.map (fun c => (c.name, c.arg)) =
        (firstSeen (re.FindAllString text)).map
          (fun t => ("./scripts/gentoo-to-networkd", [t, file_name])) ∧
      (firstSeen (re.FindAllString text)).Nodup ∧
      (∀ t, t ∈ firstSeen (re.FindAllString text) ↔ t ∈ re.FindAllString text) ∧
      (firstSeen (re.FindAllString text)).Sublist (re.FindAllString text) ∧
      (∀ t ∈ re.FindAllString text,
        (∃ ds, ds ≠ [] ∧ (∀ d ∈ ds, d.isDigit = true) ∧ t = "eth" ++ String.mk ds) ∧
          t.data <:+: text.data) ∧
      ∀ a ds b, text.data = a ++ "eth".data ++ ds ++ b → ds ≠ [] →
        (∀ d ∈ ds, d.isDigit = true) → (∀ d rest, b = d :: rest → d.isDigit = false) →
        "eth" ++ String.mk ds ∈ re.FindAllString text := by
  refine ⟨?_, nodup_firstSeen _, fun t => mem_firstSeen _ t, firstSeen_sublist _, ?_, ?_⟩
  · rw [handleNet_eq_loop host hist file_name text hread] at hok ⊢
    rcases handleNet.loop_cases host file_name hist (re.FindAllString text) [] [] with
      ⟨h1, _⟩ | ⟨pre, bad, x, post, h1, _, h3, _, _⟩
    · rw [handleNet.pending_start] at h1
      have := congrArg (List.map (fun p : String × List String × Option ε => (p.1, p.2.1))) h1
      simpa [List.map_map, Function.comp_def] using this
    · exfalso
      have := hok bad (by rw [h1]; simp)
      rw [h3] at this
      simp at this
  · intro t ht
    simp only [re.FindAllString, List.mem_map] at ht
    obtain ⟨m, hm, rfl⟩ := ht
    obtain ⟨⟨ds, h1, h2, h3⟩, h4⟩ := re.scan_shape 0 text.data m hm
    refine ⟨⟨ds, h1, h2, ?_⟩, h4⟩
    apply String.ext
    rw [h3]
    simp [String.data_append]
  · intro a ds b htext hds hdig hb
    have := re.scan_complete 0 a ds b (Nat.zero_le _) hds hdig hb
    simp only [re.FindAllString, List.mem_map]
    refine ⟨'e' :: 't' :: 'h' :: ds, ?_, ?_⟩
    · rw [htext]
      simpa using this
    · apply String.ext
      simp [String.data_append]

/-- C4 at a text that mentions `eth0` three times and `eth1` once: exactly the
two runs `eth0` then `eth1`. -/
theorem handleNet_invocations_witness :
    (∀ c ∈ (handleNet echoHost [] "/etc/conf.d/net").1, c.err = none) ∧
      (handleNet echoHost [] "/etc/conf.d/net").1.map (fun c => (c.name, c.arg)) =
        [("./scripts/gentoo-to-networkd", ["eth0", "/etc/conf.d/net"]),
         ("./scripts/gentoo-to-networkd", ["eth1", "/etc/conf.d/net"])] :=
  ⟨by decide,
    (handleNet_invocations echoHost [] "/etc/conf.d/net" "iface eth0 eth0 up; eth1 down; eth0"
      rfl (by decide)).1⟩

/-- C5: on a readable source text on which every translator run succeeds,
`handleNet` returns a document with one unit per distinct match, in the order
of first occurrence: the unit of a token is named `50-<token>.network` and its
content is the output captured from the run for `(token, path)`; the unit
names are pairwise distinct. -/
theorem handleNet_document {ε : Type} (host : Host ε) (hist : List (Command ε))
    (file_name text : String) (hread : host.ReadFile file_name = Except.ok text)
    (hok : ∀ c ∈ (handleNet host hist file_name).1, c.err = none) :
    ∃ config, (handleNet host hist file_name).2 = Except.ok config ∧
      config.Units = List.zipWith (fun t c => ⟨"50-" ++ t ++ ".network", false, c.out⟩)
        (firstSeen (re.FindAllString text)) (handleNet host hist file_name).1 ∧
      config.Units.length = (firstSeen (re.FindAllString text)).length ∧
      config.Units.map Unit.Name =
        (firstSeen (re.FindAllString text)).map (fun t => "50-" ++ t ++ ".network") ∧
      (config.Units.map Unit.Name).Nodup ∧
      config.Units.map Unit.Content = (handleNet host hist file_name).1.map Command.out ∧
      (handleNet host hist file_name).1.map (fun c => (c.name, c.arg)) =
        (firstSeen (re.FindAllString text)).map
          (fun t => ("./scripts/gentoo-to-networkd", [t, file_name])) ∧
      ∀ pre c post, (handleNet host hist file_name).1 = pre ++ c :: post →
        c.out = (host.CombinedOutput (hist ++ pre) c.name c.arg).1 := by
  rw [handleNet_eq_loop host hist file_name text hread] at hok ⊢
  rcases handleNet.loop_cases host file_name hist (re.FindAllString text) [] [] with
    ⟨h1, h2⟩ | ⟨pre, bad, x, post, h1, _, h3, _, _⟩
  · rw [handleNet.pending_start] at h1 h2
    have hlen : (handleNet.loop host file_name hist (re.FindAllString text) [] []).1.length =
        (firstSeen (re.FindAllString text)).length := by
      have := congrArg List.length h1
      simpa using this
    have hz := zipWith_names (firstSeen (re.FindAllString text)) _ hlen
    refine ⟨_, h2, by simp, ?_, hz.1, ?_, hz.2, ?_, ?_⟩
    · simp [List.length_zipWith, hlen]
    · simp only [List.nil_append]
      rw [hz.1]
      exact (nodup_firstSeen _).map (fun a b hab => unitName_injective a b hab)
    · have := congrArg (List.map (fun p : String × List String × Option ε => (p.1, p.2.1))) h1
      simpa [List.map_map, Function.comp_def] using this
    · intro pre c post hc
      have := handleNet.loop_outputs host file_name hist _ _ _ pre c post hc
      rw [← this]
  · exfalso
    have := hok bad (by rw [h1]; simp)
    rw [h3] at this
    simp at this

/-- C5 at a text whose only token is `eth3`: the document is the single unit
`50-eth3.network` holding the translator's output for `(eth3, path)`. -/
theorem handleNet_document_witness :
    (∀ c ∈ (handleNet staticHost [] "/etc/conf.d/net").1, c.err = none) ∧
      (handleNet staticHost [] "/etc/conf.d/net").2 =
        Except.ok ⟨[⟨"50-eth3.network", false, "eth3 /etc/conf.d/net"⟩]⟩ := by
  refine ⟨by decide, ?_⟩
  obtain ⟨config, h1, h2, _⟩ :=
    handleNet_document staticHost [] "/etc/conf.d/net" "iface eth3 inet static ..." rfl
      (by decide)
  rw [h1, show config = ⟨config.Units⟩ from rfl, h2]
  rfl

/-- C6: on a readable source text, if a translator run fails, that run is the
last one `handleNet` makes, every run before it succeeded, `handleNet` returns
the error of that run and no document, and the runs made are an initial part
of the runs for the distinct matches in the order of first occurrence.  A
distinct match on which the translator fails whatever ran before is never
passed over: its presence makes some run fail. -/
theorem handleNet_first_failure {ε : Type} (host : Host ε) (hist : List (Command ε))
    (file_name text : String) (hread : host.ReadFile file_name = Except.ok text) :
    ((∃ c ∈ (handleNet host hist file_name).1, c.err ≠ none) →
      ∃ pre bad x, (handleNet host hist file_name).1 = pre ++ [bad] ∧
        (∀ c ∈ pre, c.err = none) ∧
        (bad.out, some x) = host.CombinedOutput (hist ++ pre) bad.name bad.arg ∧
        (handleNet host hist file_name).2 = Except.error x ∧
        (handleNet host hist file_name).1.map (fun c => (c.name, c.arg)) <+:
          (firstSeen (re.FindAllString text)).map
            (fun t => ("./scripts/gentoo-to-networkd", [t, file_name]))) ∧
      ((∃ t ∈ firstSeen (re.FindAllString text), ∀ h,
          (host.CombinedOutput h "./scripts/gentoo-to-networkd" [t, file_name]).2 ≠ none) →
        ∃ c ∈ (handleNet host hist file_name).1, c.err ≠ none) := by
  rw [handleNet_eq_loop host hist file_name text hread]
  constructor
  · intro hfail
    rcases handleNet.loop_cases host file_name hist (re.FindAllString text) [] [] with
      ⟨h1, _⟩ | ⟨pre, bad, x, post, h1, h2, h3, h4, h5⟩
    · exfalso
      obtain ⟨c, hc, hne⟩ := hfail
      have : (c.name, c.arg, c.err) ∈ (handleNet.loop host file_name hist
          (re.FindAllString text) [] []).1.map (fun c => (c.name, c.arg, c.err)) :=
        List.mem_map_of_mem _ hc
      rw [h1] at this
      simp only [List.mem_map, Prod.mk.injEq] at this
      obtain ⟨_, _, _, _, h⟩ := this
      exact hne h.symm
    · refine ⟨pre, bad, x, h1, h2, ?_, h4, ?_⟩
      · have := handleNet.loop_outputs host file_name hist _ _ _ pre bad [] h1
        rw [← this, h3]
      · rw [handleNet.pending_start] at h5
        rw [h5, h1]
        exact ⟨post, by simp⟩
  · rintro ⟨t, ht, hbad⟩
    rcases handleNet.loop_cases host file_name hist (re.FindAllString text) [] [] with
      ⟨h1, _⟩ | ⟨pre, bad, x, post, h1, _, h3, _, _⟩
    · exfalso
      rw [handleNet.pending_start] at h1
      have hmem : ("./scripts/gentoo-to-networkd", [t, file_name], (none : Option ε)) ∈
          (handleNet.loop host file_name hist (re.FindAllString text) [] []).1.map
            (fun c => (c.name, c.arg, c.err)) := by
        rw [h1]
        exact List.mem_map_of_mem _ ht
      obtain ⟨c, hc, hceq⟩ := List.mem_map.1 hmem
      simp only [Prod.mk.injEq] at hceq
      obtain ⟨pre, post, hsplit⟩ := List.append_of_mem hc
      have hout := handleNet.loop_outputs host file_name hist _ _ _ pre c post hsplit
      have herr : (host.CombinedOutput (hist ++ pre) c.name c.arg).2 = none := by
        rw [← hout]
        exact hceq.2.2
      rw [hceq.1, hceq.2.1] at herr
      exact hbad _ herr
    · exact ⟨bad, by rw [h1]; simp, by rw [h3]; simp⟩

/-- C6 at a translator that fails for `eth1`, the second of the tokens `eth0`,
`eth1`, `eth2`: no document, the error of the `eth1` run, and no run for
`eth2`. -/
theorem handleNet_first_failure_witness :
    (∃ c ∈ (handleNet failingHost [] "/etc/conf.d/net").1, c.err ≠ none) ∧
      (handleNet failingHost [] "/etc/conf.d/net").2 = Except.error "exit status 1" ∧
      (handleNet failingHost [] "/etc/conf.d/net").1.map Command.arg =
        [["eth0", "/etc/conf.d/net"], ["eth1", "/etc/conf.d/net"]] := by
  refine ⟨by decide, ?_, by decide⟩
  obtain ⟨pre, bad, x, _, _, _, h4, _⟩ :=
    (handleNet_first_failure failingHost [] "/etc/conf.d/net" "eth0 eth1 eth0 eth2" rfl).1
      (by decide)
  have h : (handleNet failingHost [] "/etc/conf.d/net").2 = Except.error "exit status 1" := rfl
  have hx : x = "exit status 1" := by
    rw [h] at h4
    exact (Except.error.inj h4).symm
  rw [h4, hx]

/-- C7 fails as stated: for the root `/` and the ephemeral unit named
`../../../etc/systemd/system/x.service`, `PlaceUnit` writes and returns
`/etc/systemd/system/x.service`, which lies under the persisted tree and not
under the runtime tree. -/
theorem PlaceUnit_escapes_tree :
    PlaceUnit readyFs [] ⟨"../../../etc/systemd/system/x.service", true, "[Service]"⟩ "/" =
        ([FsCall.stat "/run/systemd/system",
          FsCall.writeFile ⟨"/etc/systemd/system/x.service", "[Service]", "0644"⟩],
         "/etc/systemd/system/x.service", none) ∧
      ¬ liesUnder (Join ["/", "run", "systemd"]) "/etc/systemd/system/x.service" ∧
      liesUnder (Join ["/", "etc", "systemd"]) "/etc/systemd/system/x.service" := by
  decide

/-- C7 amended: for every root prefix and every unit whose non-empty name has
no `..` among its slash-separated elements, every file `PlaceUnit` writes, and
the path it returns on success, is `<tree>/<group>/<kept elements of the
name>`, where `<tree>` is `Join(root, "run", "systemd")` for an ephemeral unit
and `Join(root, "etc", "systemd")` for a persisted one; that path lies under
its own tree and not under the other one.  For a name that is a single
element other than `.` the path is `<tree>/<group>/<name>`. -/
theorem PlaceUnit_tree {ε : Type} (fs : FileSystem ε) (hist : List FsCall) (u : Unit)
    (root : String) (_hname : u.Name ≠ "") (hdd : ¬ "..".data ∈ splitSlash u.Name.data) :
    (∀ f, FsCall.writeFile f ∈ (PlaceUnit fs hist u root).1 →
        f.Path = PlaceUnit.dst u root) ∧
      ((PlaceUnit fs hist u root).2.2 = none →
        (PlaceUnit fs hist u root).2.1 = PlaceUnit.dst u root) ∧
      PlaceUnit.dst u root =
        Join [root, if u.Runtime then "run" else "etc", "systemd"] ++ "/" ++
          String.mk (joinSlash (u.Group.data :: Clean.kept u.Name.data)) ∧
      (¬ '/' ∈ u.Name.data → u.Name ≠ "." →
        PlaceUnit.dst u root =
          Join [root, if u.Runtime then "run" else "etc", "systemd"] ++ "/" ++ u.Group ++ "/" ++
            u.Name) ∧
      (u.Runtime = true →
        liesUnder (Join [root, "run", "systemd"]) (PlaceUnit.dst u root) ∧
        ¬ liesUnder (Join [root, "etc", "systemd"]) (PlaceUnit.dst u root)) ∧
      (u.Runtime = false →
        liesUnder (Join [root, "etc", "systemd"]) (PlaceUnit.dst u root) ∧
        ¬ liesUnder (Join [root, "run", "systemd"]) (PlaceUnit.dst u root)) := by
  have hdst := PlaceUnit.dst_data u root hdd
  have hw := PlaceUnit_writes fs hist u root
  have hjs : joinSlash (u.Group.data :: Clean.kept u.Name.data) ≠ [] := by
    apply joinSlash_ne_nil _ (by simp)
    intro e he
    rcases List.mem_cons.1 he with rfl | he
    · exact (simple_group u).1
    · exact Clean.kept_ne_nil _ e he
  refine ⟨fun f hf => by rw [hw.1 f hf], fun h => (hw.2 h).1, ?_, ?_, ?_, ?_⟩
  · apply String.ext
    rw [hdst]
    simp [String.data_append]
  · intro hslash hdot
    have hsimple : SimpleElem u.Name.data := by
      refine ⟨fun h => _hname (String.ext h), fun h => hdot (String.ext h), ?_, hslash⟩
      intro h
      apply hdd
      rw [splitSlash_of_not_mem _ hslash, h]
      simp
    apply String.ext
    rw [hdst, Clean.kept_single _ hsimple]
    simp [String.data_append, joinSlash]
  · intro hr
    unfold liesUnder
    rw [hdst, hr, if_pos rfl, tree_data root "run" simple_run, tree_data root "etc" simple_etc]
    refine ⟨⟨⟨joinSlash (u.Group.data :: Clean.kept u.Name.data), by simp⟩, ?_⟩, ?_⟩
    · have := List.length_pos.2 hjs
      simp only [List.length_append, List.length_cons, List.length_nil]
      omega
    · rintro ⟨h, _⟩
      simp only [List.append_assoc] at h
      rw [List.prefix_append_right_inj] at h
      revert h
      simp [List.cons_prefix_cons]
  · intro hr
    unfold liesUnder
    rw [hdst, hr, if_neg (by simp), tree_data root "run" simple_run,
      tree_data root "etc" simple_etc]
    refine ⟨⟨⟨joinSlash (u.Group.data :: Clean.kept u.Name.data), by simp⟩, ?_⟩, ?_⟩
    · have := List.length_pos.2 hjs
      simp only [List.length_append, List.length_cons, List.length_nil]
      omega
    · rintro ⟨h, _⟩
      simp only [List.append_assoc] at h
      rw [List.prefix_append_right_inj] at h
      revert h
      simp [List.cons_prefix_cons]

/-- C7 amended, at the root `/mnt/root` and the ephemeral unit
`50-eth0.network`. -/
theorem PlaceUnit_tree_witness :
    PlaceUnit.dst ⟨"50-eth0.network", true, "[Match]"⟩ "/mnt/root" =
        "/mnt/root/run/systemd/network/50-eth0.network" ∧
      liesUnder (Join ["/mnt/root", "run", "systemd"])
        (PlaceUnit.dst ⟨"50-eth0.network", true, "[Match]"⟩ "/mnt/root") ∧
      ¬ liesUnder (Join ["/mnt/root", "etc", "systemd"])
        (PlaceUnit.dst ⟨"50-eth0.network", true, "[Match]"⟩ "/mnt/root") :=
  ⟨by decide,
    (PlaceUnit_tree readyFs [] ⟨"50-eth0.network", true, "[Match]"⟩ "/mnt/root"
      (by decide) (by decide)).2.2.2.2.1 rfl⟩

/-- C8 fails on the code: with the watch directory `/`, the existing path
`/etc/conf.d/hostname` has the registry key `/etc/conf.d/hostname`, which
`fileHandlers` does not hold; `runEvent` then calls the `nil` function value
and ends in a run-time panic instead of returning an error (no command is
run and `runConfig` is not reached). -/
theorem runEvent_sibling_file :
    Join ["/", "etc/conf.d/hostname"] = "/etc/conf.d/hostname" ∧
      (runEvent siblingHost "/etc/conf.d/hostname" "/").ret = none ∧
      (runEvent siblingHost "/etc/conf.d/hostname" "/").commands.length = 0 ∧
      (runEvent siblingHost "/etc/conf.d/hostname" "/").configs = [] ∧
      (runEvent siblingHost "/etc/conf.d/hostname" "/").transients = [] := by
  decide

/-- C10 fails as stated: the extension is returned as written, not in
lowercase (`X.NETWORK` has the type `NETWORK`), and a dot in a directory part
of the name is not the start of an extension (`a.b/c` has the empty type, not
`b/c`). -/
theorem Type_spec_fails :
    Unit.Type ⟨"X.NETWORK", false, ""⟩ = "NETWORK" ∧ Type.spec "X.NETWORK" = "network" ∧
      Unit.Type ⟨"a.b/c", false, ""⟩ = "" ∧ Type.spec "a.b/c" = "b/c" := by
  decide

/-- C10 amended: `Type()` returns, with its case unchanged, the text after the
last `.` of the final slash-separated element of the name, and the empty
string when that element has no `.`. -/
theorem Type_final_element (name : String) (runtime : Bool) (content : String) :
    (∀ stem e : String, name = stem ++ "." ++ e → (∀ c ∈ e.data, c ≠ '/' ∧ c ≠ '.') →
        Unit.Type ⟨name, runtime, content⟩ = e) ∧
      (∀ dir base : String, name = dir ++ base → (∀ c ∈ base.data, c ≠ '/' ∧ c ≠ '.') →
        (dir = "" ∨ dir.data.getLast? = some '/') →
        Unit.Type ⟨name, runtime, content⟩ = "") := by
  constructor
  · intro stem e hn he
    have : name = ⟨stem.data ++ '.' :: e.data⟩ := by
      rw [hn]; apply String.ext; simp [String.data_append]
    rw [this]
    exact Type_of_suffix _ _ _ _ he
  · intro dir base hn hb hd
    have : name = ⟨dir.data ++ base.data⟩ := by
      rw [hn]; apply String.ext; simp [String.data_append]
    rw [this]
    refine Type_of_no_dot _ _ _ _ hb ?_
    rcases hd with h | h
    · left; rw [h]
    · right; exact h

/-- C10 amended, at a name with a mixed-case extension after a dotted
directory part, and at a name whose final element has no dot. -/
theorem Type_final_element_witness :
    Unit.Type ⟨"a.b/50-eth0.Network", true, "x"⟩ = "Network" ∧
      Unit.Type ⟨"a.b/c", true, "x"⟩ = "" :=
  ⟨(Type_final_element "a.b/50-eth0.Network" true "x").1 "a.b/50-eth0" "Network" (by decide)
      (by decide),
    (Type_final_element "a.b/c" true "x").2 "a.b/" "c" (by decide) (by decide)
      (Or.inr (by decide))⟩

end NovaAgentWatcher
